import Mathlib

/-!
Verification of the slide-converter document structuring engine.

The Python source (`slide_converter.py`) is shallowly embedded here.
Python strings are modelled as `List Char` (a Python `str` is a sequence of
code points); spans carry their text, font identifier and size.  Font sizes
are modelled as rationals (`ℚ`): the source manipulates them only through
comparisons, `max`, and `round`, all of which are exact on rationals.
Python's `round` (banker's rounding, half to even) is modelled by `pyRound`.
Fallible parts of the pipeline (per-image extraction) are modelled with
`Option`.
-/

/-- Whitespace test used by Python `str.strip` / `str.lstrip` (core cases). -/
def isPySpace (c : Char) : Bool :=
  c = ' ' || c = '\t' || c = '\n' || c = '\x0d' || c = '\x0b' || c = '\x0c'

/-- Python `str.lstrip()`. -/
def pyLStrip (cs : List Char) : List Char :=
  cs.dropWhile isPySpace

/-- Python `str.rstrip()`. -/
def pyRStrip (cs : List Char) : List Char :=
  (cs.reverse.dropWhile isPySpace).reverse

/-- Python `str.strip()`. -/
def pyStrip (cs : List Char) : List Char :=
  pyRStrip (pyLStrip cs)

/-- Python `str.isdigit()` (ASCII digits): nonempty and all digits. -/
def pyIsDigit (cs : List Char) : Bool :=
  !cs.isEmpty && cs.all Char.isDigit

/-- Python `str.replace(old, new)` for a single-character `old`: every
occurrence of the character is replaced, independently, by `rep`. -/
def replaceAll (cs : List Char) (c : Char) (rep : List Char) : List Char :=
  cs.flatMap fun x => if x = c then rep else [x]

/-- Boolean prefix test on character lists. -/
def isPrefixB : List Char → List Char → Bool
  | [], _ => true
  | _ :: _, [] => false
  | a :: as, b :: bs => a = b && isPrefixB as bs

/-- Python's `needle in haystack` on strings: contiguous substring test. -/
def containsSubB (n : List Char) : List Char → Bool
  | [] => isPrefixB n []
  | h :: t => isPrefixB n (h :: t) || containsSubB n t

/-- Python `round` on a rational: nearest integer, ties to even. -/
def pyRound (q : ℚ) : ℤ :=
  let f : ℤ := ⌊q⌋
  let r : ℚ := q - f
  if r < 1/2 then f
  else if r > 1/2 then f + 1
  else if f % 2 = 0 then f else f + 1

-- --- Span model --------------------------------------------------------------

/-- A text run: `{"text": ..., "font": ..., "size": ...}` in the source. -/
structure Span where
  text : List Char
  font : List Char
  size : ℚ
  deriving DecidableEq, Repr

/-- `MATH_FONTS = ("CambriaMath", "Cambria Math", "MT-Extra", "Symbol")`. -/
def MATH_FONTS : List (List Char) :=
  ["CambriaMath".data, "Cambria Math".data, "MT-Extra".data, "Symbol".data]

/-- `is_math(font_name)`: any math-font substring occurs in the name. -/
def is_math (font : List Char) : Bool :=
  MATH_FONTS.any fun m => containsSubB m font

/-- `plain_text(spans)`: join all span texts and strip. -/
def plain_text (spans : List Span) : List Char :=
  pyStrip (spans.flatMap Span.text)

/-- The bullet characters stripped by `strip_bullet_char`:
`"•‣●○–—‒"`. -/
def bulletStripChars : List Char :=
  ['•', '‣', '●', '○', '–', '—', '‒']

/-- The loop body of `strip_bullet_char`, accumulating `out` while tracking
the `stripped` flag. -/
def stripBulletOut : List Span → Bool → List Span
  | [], _ => []
  | s :: rest, stripped =>
    if stripped then s :: stripBulletOut rest true
    else
      match pyLStrip s.text with
      | [] => stripBulletOut rest false
      | c :: t =>
        if c ∈ bulletStripChars then
          let t' := pyLStrip t
          if t' ≠ [] then { s with text := t' } :: stripBulletOut rest true
          else stripBulletOut rest true
        else s :: stripBulletOut rest true

/-- `strip_bullet_char(spans)`: remove the leading bullet character; if
nothing would remain, return the original spans. -/
def strip_bullet_char (spans : List Span) : List Span :=
  let out := stripBulletOut spans false
  if out ≠ [] then out else spans

-- --- Span renderers ----------------------------------------------------------

/-- `html.escape` as used by `esc`: sequential replacements of
`&`, `<`, `>`, `"`, `'` (the `&` pass runs first, so the entities inserted
by the later passes are not re-escaped). -/
def esc (cs : List Char) : List Char :=
  let a := replaceAll cs '&' "&amp;".data
  let b := replaceAll a '<' "&lt;".data
  let c := replaceAll b '>' "&gt;".data
  let d := replaceAll c '"' "&quot;".data
  replaceAll d '\'' "&#x27;".data

/-- `"Bold" in font`. -/
def fontBold (font : List Char) : Bool := containsSubB "Bold".data font

/-- `"Italic" in font`. -/
def fontItalic (font : List Char) : Bool := containsSubB "Italic".data font

/-- The HTML fragment `spans_to_html` appends for one span. -/
def spanToHtml (s : Span) : List Char :=
  if s.text = [] then []
  else
    let e := esc s.text
    if is_math s.font then "<span class=\"math\">".data ++ e ++ "</span>".data
    else if fontBold s.font && fontItalic s.font then
      "<strong><em>".data ++ e ++ "</em></strong>".data
    else if fontBold s.font then "<strong>".data ++ e ++ "</strong>".data
    else if fontItalic s.font then "<em>".data ++ e ++ "</em>".data
    else e

/-- `spans_to_html(spans)`: render spans to HTML (parts joined by `""`). -/
def spans_to_html (spans : List Span) : List Char :=
  spans.flatMap spanToHtml

/-- The markdown escape in `spans_to_md`: escape `\` first, then each of
`*_`, backtick, brackets, parens, `#`, `>` in sequence. -/
def mdEscape (cs : List Char) : List Char :=
  let e := replaceAll cs '\\' ['\\', '\\']
  "*_`[]()#>".data.foldl (fun acc ch => replaceAll acc ch ['\\', ch]) e

/-- The markdown fragment `spans_to_md` appends for one span. -/
def spanToMd (s : Span) : List Char :=
  if s.text = [] then []
  else
    let escaped := mdEscape s.text
    if is_math s.font then s.text
    else if fontBold s.font && fontItalic s.font then
      "***".data ++ escaped ++ "***".data
    else if fontBold s.font then "**".data ++ escaped ++ "**".data
    else if fontItalic s.font then "*".data ++ escaped ++ "*".data
    else escaped

/-- `spans_to_md(spans)`: render spans to Markdown. -/
def spans_to_md (spans : List Span) : List Char :=
  spans.flatMap spanToMd

-- --- Document model ----------------------------------------------------------

/-- One line of a text block: its spans and its bounding-box top `bbox[1]`. -/
structure PdfLine where
  spans : List Span
  y : ℚ
  deriving DecidableEq, Repr

/-- One block of `page.get_text("dict")["blocks"]`; `btype` is `block["type"]`
(`0` = text block). -/
structure PdfBlock where
  btype : ℤ
  lines : List PdfLine
  deriving DecidableEq, Repr

/-- A successfully extracted raster image (base64 data and extension). -/
structure ImgData where
  data : String
  ext : String
  deriving DecidableEq, Repr

/-- One page as surfaced by the Document Access Library: text blocks, height,
vector-drawing count (`len(page.get_drawings())`), the embedded raster
images (`none` = the per-image `try/except` swallowed a failure), and the
page's PNG rasterization. -/
structure PdfPage where
  height : ℚ
  blocks : List PdfBlock
  drawings : ℕ
  images : List (Option ImgData)
  renderPng : String
  deriving DecidableEq, Repr

-- --- Font Profile Analyzer ---------------------------------------------------

/-- All spans of a document's text blocks, in document order. -/
def docSpans (doc : List PdfPage) : List Span :=
  doc.flatMap fun p =>
    (p.blocks.filter fun b => b.btype == 0).flatMap fun b =>
      b.lines.flatMap PdfLine.spans

/-- The `(round(size), len(stripped_text))` contributions of the non-blank
spans, in document order. -/
def sizeEntries (doc : List PdfPage) : List (ℤ × ℕ) :=
  (docSpans doc).filterMap fun s =>
    let txt := pyStrip s.text
    if txt = [] then none else some (pyRound s.size, txt.length)

/-- `Counter` update `size_chars[k] += n`: increment an existing key in
place, else append a fresh key (insertion order preserved). -/
def bump : List (ℤ × ℕ) → ℤ → ℕ → List (ℤ × ℕ)
  | [], k, n => [(k, n)]
  | (k', m) :: t, k, n =>
    if k' = k then (k', m + n) :: t else (k', m) :: bump t k n

/-- The `size_chars` counter of `analyze_pdf_fonts`, as an association list
in insertion order. -/
def size_chars (doc : List PdfPage) : List (ℤ × ℕ) :=
  (sizeEntries doc).foldl (fun c p => bump c p.1 p.2) []

/-- The adaptive thresholds `{"title": ..., "body": ...}`. -/
structure FontStats where
  title : ℤ
  body : ℤ
  deriving DecidableEq, Repr

/-- `sorted(size_chars.keys(), reverse=True)[0]`: the greatest key. -/
def maxKey : List (ℤ × ℕ) → ℤ
  | [] => 0
  | [(k, _)] => k
  | (k, _) :: rest => max k (maxKey rest)

/-- `size_chars.most_common(1)[0]`: `most_common` is a stable descending
sort by count, so its head is the first-inserted entry of maximal count. -/
def mostCommon1 : List (ℤ × ℕ) → ℤ × ℕ
  | [] => (0, 0)
  | e :: rest => rest.foldl (fun best p => if p.2 > best.2 then p else best) e

/-- `analyze_pdf_fonts(doc)`. -/
def analyze_pdf_fonts (doc : List PdfPage) : FontStats :=
  let sc := size_chars doc
  if sc = [] then ⟨40, 24⟩
  else ⟨maxKey sc, (mostCommon1 sc).1⟩

-- --- Render Policy -----------------------------------------------------------

/-- `page_needs_render(page)`: more than 4 vector drawings, or some
non-blank math-font span in a text block. -/
def page_needs_render (page : PdfPage) : Bool :=
  if page.drawings > 4 then true
  else
    (page.blocks.filter fun b => b.btype == 0).any fun b =>
      b.lines.any fun l =>
        l.spans.any fun s => !(pyStrip s.text).isEmpty && is_math s.font

-- --- Elements ----------------------------------------------------------------

/-- The tagged element variants produced by the pipeline. -/
inductive Element where
  | title (spans : List Span) (page_num : ℕ)
  | bullet (spans : List Span) (level : ℕ)
  | equation (spans : List Span)
  | code (lines : List (List Char))
  | label (spans : List Span)
  | body (spans : List Span)
  | image (data ext alt : String)
  | render (data alt : String)
  | table (rows : List (List (List Char)))
  deriving DecidableEq, Repr

/-- The `"spans"` field of an element (empty for span-less variants). -/
def Element.spansOf : Element → List Span
  | .title s _ => s
  | .bullet s _ => s
  | .equation s => s
  | .label s => s
  | .body s => s
  | _ => []

def isEquationEl : Element → Bool
  | .equation _ => true
  | _ => false

def isLabelEl : Element → Bool
  | .label _ => true
  | _ => false

def isTitleEl : Element → Bool
  | .title _ _ => true
  | _ => false

def isBulletEl : Element → Bool
  | .bullet _ _ => true
  | _ => false

def isRenderEl : Element → Bool
  | .render _ _ => true
  | _ => false

-- --- Post-Processor ----------------------------------------------------------

theorem dropWhile_length_le (p : α → Bool) (l : List α) :
    (l.dropWhile p).length ≤ l.length := by
  induction l with
  | nil => simp
  | cons a t ih =>
    by_cases h : p a
    · simp [List.dropWhile_cons, h]; omega
    · simp [List.dropWhile_cons, h]

/-- `";" in t or "=" in t or "(" in t`. -/
def hasCodeChar (t : List Char) : Bool :=
  t.contains ';' || t.contains '=' || t.contains '('

/-- `postprocess_elements(elements)`: merge consecutive equations, detect
code blocks in runs of labels. -/
def postprocess_elements : List Element → List Element
  | [] => []
  | e :: rest =>
    if isEquationEl e then
      let run := rest.takeWhile isEquationEl
      let rest' := rest.dropWhile isEquationEl
      let merged := e.spansOf ++ run.flatMap Element.spansOf
      (if run.length > 0 then Element.equation merged else e)
        :: postprocess_elements rest'
    else if isLabelEl e then
      let run := e :: rest.takeWhile isLabelEl
      let rest' := rest.dropWhile isLabelEl
      let texts := run.map fun lb => plain_text lb.spansOf
      if run.length ≥ 3 ∧ (texts.filter hasCodeChar).length ≥ 2 then
        Element.code texts :: postprocess_elements rest'
      else run ++ postprocess_elements rest'
    else e :: postprocess_elements rest
termination_by l => l.length
decreasing_by
  all_goals simp only [List.length_cons]
  all_goals first
    | exact Nat.lt_succ_of_le (dropWhile_length_le _ _)
    | exact Nat.lt_succ_of_le (Nat.le_refl _)

-- --- Page Classifier ---------------------------------------------------------

/-- The classifier's page-local mutable state. -/
structure CState where
  elements : List Element
  list_depth : ℕ
  current_bullet : Option ℕ
  title_emitted : Bool
  slide_title : Option (List Char)
  deriving DecidableEq, Repr

def initState : CState := ⟨[], 0, none, false, none⟩

/-- In-place update of the `i`-th list entry (identity when out of range). -/
def modifyIdx : List α → ℕ → (α → α) → List α
  | [], _, _ => []
  | a :: t, 0, f => f a :: t
  | a :: t, n + 1, f => a :: modifyIdx t n f

/-- `elements[current_bullet]["spans"].extend(spans)`.  The classifier only
ever points `current_bullet` at a `bullet` element; the span-less variants
are mapped to themselves. -/
def Element.extendSpans : Element → List Span → Element
  | .title s p, sp => .title (s ++ sp) p
  | .bullet s l, sp => .bullet (s ++ sp) l
  | .equation s, sp => .equation (s ++ sp)
  | .label s, sp => .label (s ++ sp)
  | .body s, sp => .body (s ++ sp)
  | e, _ => e

/-- `max(s["size"] for s in spans)` (callers guarantee nonemptiness). -/
def maxSize : List Span → ℚ
  | [] => 0
  | s :: rest => rest.foldl (fun m x => max m x.size) s.size

/-- Top-level bullet glyphs `"•‣●○"`. -/
def topBulletChars : List Char := ['•', '‣', '●', '○']

/-- Sub-bullet glyphs `"–—‒"`. -/
def subBulletChars : List Char := ['–', '—', '‒']

/-- The non-blank spans of a line (`spans = [s for s in line["spans"] if
s["text"].strip()]`). -/
def nbSpans (ln : PdfLine) : List Span :=
  ln.spans.filter fun s => !(pyStrip s.text).isEmpty

/-- The classified text of a line (`"".join(...).strip()`). -/
def lineText (ln : PdfLine) : List Char :=
  pyStrip ((nbSpans ln).flatMap Span.text)

/-- One iteration of the per-line loop of `extract_pdf_page`. -/
def lineStep (fs : FontStats) (page_h : ℚ) (page_num : ℕ)
    (st : CState) (ln : PdfLine) : CState :=
  let spans := nbSpans ln
  if spans.isEmpty then st
  else
    let text := lineText ln
    if text.isEmpty then st
    else
      let max_sz := maxSize spans
      let all_math := spans.all fun s => is_math s.font
      -- skip page numbers
      if max_sz < 15 ∧ ln.y > page_h * (4/5) ∧ pyIsDigit (pyStrip text) then st
      -- title
      else if max_sz ≥ (fs.title : ℚ) - 2 ∧ st.title_emitted = false then
        { elements := st.elements ++ [Element.title spans page_num]
          list_depth := 0
          current_bullet := none
          title_emitted := true
          slide_title := some text }
      -- top-level bullet (`list_depth` is first clamped to 1, then raised
      -- from 0 to 1, which together always leave it at 1)
      else if text.head?.any (fun c => decide (c ∈ topBulletChars)) then
        let d₁ := if st.list_depth > 1 then 1 else st.list_depth
        { st with
          elements := st.elements ++ [Element.bullet (strip_bullet_char spans) 0]
          list_depth := if d₁ = 0 then 1 else d₁
          current_bullet := some st.elements.length }
      -- sub-bullet (`list_depth` is raised to at least 1, then set to 2)
      else if text.head?.any (fun c => decide (c ∈ subBulletChars)) then
        { st with
          elements := st.elements ++ [Element.bullet (strip_bullet_char spans) 1]
          list_depth := 2
          current_bullet := some st.elements.length }
      -- equation
      else if all_math then
        { st with
          elements := st.elements ++ [Element.equation spans]
          current_bullet := none }
      -- small text / label
      else if max_sz < (fs.body : ℚ) - 6 ∧ max_sz < (fs.title : ℚ) - 10 then
        { st with
          elements := st.elements ++ [Element.label spans]
          list_depth := 0
          current_bullet := none }
      -- body / continuation
      else
        match st.current_bullet with
        | some i =>
          { st with elements := modifyIdx st.elements i fun e => e.extendSpans spans }
        | none =>
          if st.list_depth > 0 then
            { st with
              elements := st.elements ++ [Element.bullet spans (st.list_depth - 1)]
              current_bullet := some st.elements.length }
          else
            { st with elements := st.elements ++ [Element.body spans] }

/-- The lines of a page's text blocks, in reading order. -/
def pdfLines (page : PdfPage) : List PdfLine :=
  (page.blocks.filter fun b => b.btype == 0).flatMap PdfBlock.lines

/-- The per-line classification loop of `extract_pdf_page` (the final
`close_lists()` only resets bookkeeping fields and emits nothing). -/
def classifyLines (fs : FontStats) (page_h : ℚ) (page_num : ℕ)
    (lines : List PdfLine) : CState :=
  lines.foldl (lineStep fs page_h page_num) initState

/-- The `Image` elements appended after line processing: one per
successfully extracted raster image, failures skipped. -/
def imageElements (page : PdfPage) (page_num : ℕ) : List Element :=
  page.images.enum.filterMap fun p =>
    p.2.map fun d =>
      Element.image d.data d.ext
        ("Slide " ++ toString (page_num + 1) ++ " Figure " ++ toString (p.1 + 1))

/-- `extract_pdf_page(page, page_num, doc, fs)`: elements and slide title. -/
def extract_pdf_page (fs : FontStats) (page : PdfPage) (page_num : ℕ) :
    List Element × Option (List Char) :=
  let st := classifyLines fs page.height page_num (pdfLines page)
  (postprocess_elements (st.elements ++ imageElements page page_num),
   st.slide_title)

-- --- extract_pdf: per-page render decision -----------------------------------

def RENDER_AUTO : String := "auto"
def RENDER_ALL : String := "all"
def RENDER_NONE : String := "none"

/-- The per-page body of `extract_pdf`: extract the page, then attach a
`Render` element when the render mode asks for one. -/
def buildPage (render_mode : String) (fs : FontStats) (page : PdfPage)
    (pn : ℕ) : List Element :=
  let elems := (extract_pdf_page fs page pn).1
  if render_mode = RENDER_ALL ∨ (render_mode = RENDER_AUTO ∧ page_needs_render page) then
    elems ++ [Element.render page.renderPng ("Slide " ++ toString (pn + 1))]
  else elems

-- --- Derived views used in the claim statements -------------------------------


-- --- Helper lemmas ------------------------------------------------------------

theorem countP_dropWhile_not (p : α → Bool) (l : List α) :
    (l.dropWhile p).countP (fun a => !p a) = l.countP (fun a => !p a) := by
  induction l with
  | nil => simp
  | cons a t ih =>
    by_cases h : p a
    · simp [List.dropWhile_cons, h, ih, List.countP_cons]
    · simp [List.dropWhile_cons, h]

theorem countP_pyStrip (cs : List Char) :
    (pyStrip cs).countP (fun c => !isPySpace c) = cs.countP (fun c => !isPySpace c) := by
  unfold pyStrip pyRStrip pyLStrip
  rw [List.countP_reverse, countP_dropWhile_not, List.countP_reverse,
    countP_dropWhile_not]

theorem pyStrip_ne_nil_iff (cs : List Char) :
    pyStrip cs ≠ [] ↔ ∃ c ∈ cs, !isPySpace c := by
  constructor
  · intro h
    by_contra hc
    push_neg at hc
    apply h
    unfold pyStrip pyRStrip pyLStrip
    have h1 : cs.dropWhile isPySpace = [] := by
      rw [List.dropWhile_eq_nil_iff]
      intro x hx
      simpa using hc x hx
    rw [h1]
    rfl
  · rintro ⟨c, hc, hcs⟩
    intro h
    have h2 := countP_pyStrip cs
    rw [h] at h2
    simp only [List.countP_nil] at h2
    have : cs.countP (fun c => !isPySpace c) ≠ 0 := by
      rw [Ne, List.countP_eq_zero]
      push_neg
      exact ⟨c, hc, by simpa using hcs⟩
    exact this h2.symm

/-- A line with a non-blank span has non-blank joined text. -/
theorem lineText_ne_nil {ln : PdfLine} (h : nbSpans ln ≠ []) : lineText ln ≠ [] := by
  unfold lineText
  rw [pyStrip_ne_nil_iff]
  cases hs : nbSpans ln with
  | nil => exact absurd hs h
  | cons s t =>
    have hmem : s ∈ nbSpans ln := by rw [hs]; exact List.mem_cons_self s t
    have hnb : pyStrip s.text ≠ [] := by
      unfold nbSpans at hmem
      have := List.of_mem_filter hmem
      simpa using this
    rw [pyStrip_ne_nil_iff] at hnb
    obtain ⟨c, hc, hcp⟩ := hnb
    exact ⟨c, List.mem_flatMap.mpr ⟨s, List.mem_cons_self s t, hc⟩, hcp⟩

-- --- C9 ------------------------------------------------------------------------

/-- C9: if a document contains no non-blank span text at all, the Font
Profile Analyzer does not fail and returns exactly `title_size = 40` and
`body_size = 24`. -/
theorem analyze_pdf_fonts_empty_defaults (doc : List PdfPage)
    (h : ∀ s ∈ docSpans doc, pyStrip s.text = []) :
    analyze_pdf_fonts doc = ⟨40, 24⟩ := by
  have hse : sizeEntries doc = [] := by
    unfold sizeEntries
    rw [List.filterMap_eq_nil_iff]
    intro s hs
    simp [h s hs]
  simp [analyze_pdf_fonts, size_chars, hse]

/-- C9 witness: a one-page document whose only spans are whitespace and an
image-only block yields the fixed defaults. -/
theorem analyze_pdf_fonts_empty_defaults_witness :
    (∀ s ∈ docSpans [⟨100, [⟨0, [⟨[⟨"  ".data, "Helvetica".data, 12⟩], 0⟩]⟩, ⟨1, []⟩],
        7, [], "png"⟩], pyStrip s.text = [])
    ∧ analyze_pdf_fonts [⟨100, [⟨0, [⟨[⟨"  ".data, "Helvetica".data, 12⟩], 0⟩]⟩, ⟨1, []⟩],
        7, [], "png"⟩] = ⟨40, 24⟩ :=
  ⟨by decide, analyze_pdf_fonts_empty_defaults _ (by decide)⟩

-- --- C2 ------------------------------------------------------------------------

theorem modifyIdx_length (l : List α) (i : ℕ) (f : α → α) :
    (modifyIdx l i f).length = l.length := by
  induction l generalizing i with
  | nil => rfl
  | cons a t ih =>
    cases i with
    | zero => simp [modifyIdx]
    | succ n => simp [modifyIdx, ih]

/-- C2 counterexample: with `body_size = 24` and `title_size = 40`, a line
whose maximum span size is exactly `body_size - 6` (hence at least 6pt
below `body_size` and at least 10pt below `title_size`) is NOT emitted as a
Label: the classifier emits a Body element for it. -/
theorem label_rule_boundary_counterexample :
    maxSize (nbSpans ⟨[⟨"hello".data, "Helvetica".data, 18⟩], 0⟩) = (24 : ℚ) - 6
    ∧ (24 : ℚ) - maxSize (nbSpans ⟨[⟨"hello".data, "Helvetica".data, 18⟩], 0⟩) ≥ 6
    ∧ (40 : ℚ) - maxSize (nbSpans ⟨[⟨"hello".data, "Helvetica".data, 18⟩], 0⟩) ≥ 10
    ∧ (lineStep ⟨40, 24⟩ 100 0 initState ⟨[⟨"hello".data, "Helvetica".data, 18⟩], 0⟩).elements
        = [Element.body (nbSpans ⟨[⟨"hello".data, "Helvetica".data, 18⟩], 0⟩)] := by
  with_unfolding_all decide

/-- C2 (amended): for a line that is not skipped as a page number and not
classified as title, bullet, sub-bullet or equation, the classifier emits a
Label element if and only if the line's maximum span size is STRICTLY more
than 6pt below `body_size` and STRICTLY more than 10pt below `title_size`
(a line at exactly `body_size - 6` or exactly `title_size - 10` is not a
Label and falls through to body/continuation handling). -/
theorem label_rule_iff (fs : FontStats) (page_h : ℚ) (page_num : ℕ)
    (st : CState) (ln : PdfLine)
    (hnb : nbSpans ln ≠ [])
    (hskip : ¬(maxSize (nbSpans ln) < 15 ∧ ln.y > page_h * (4/5) ∧
        pyIsDigit (pyStrip (lineText ln)) = true))
    (htitle : ¬(maxSize (nbSpans ln) ≥ (fs.title : ℚ) - 2 ∧ st.title_emitted = false))
    (htop : ((lineText ln).head?.any fun c => decide (c ∈ topBulletChars)) = false)
    (hsub : ((lineText ln).head?.any fun c => decide (c ∈ subBulletChars)) = false)
    (hmath : ((nbSpans ln).all fun s => is_math s.font) = false) :
    ((lineStep fs page_h page_num st ln).elements
        = st.elements ++ [Element.label (nbSpans ln)])
      ↔ (maxSize (nbSpans ln) < (fs.body : ℚ) - 6 ∧
         maxSize (nbSpans ln) < (fs.title : ℚ) - 10) := by
  have h1 : (nbSpans ln).isEmpty = false := by
    simp only [List.isEmpty_eq_false]
    exact hnb
  have h2 : (lineText ln).isEmpty = false := by
    simp only [List.isEmpty_eq_false]
    exact lineText_ne_nil hnb
  simp only [lineStep, h1, h2, Bool.false_eq_true, if_false]
  rw [if_neg hskip, if_neg htitle, if_neg (by simp [htop]), if_neg (by simp [hsub]),
    if_neg (by simp [hmath])]
  constructor
  · intro h
    by_cases hc : maxSize (nbSpans ln) < (fs.body : ℚ) - 6 ∧
        maxSize (nbSpans ln) < (fs.title : ℚ) - 10
    · exact hc
    · exfalso
      rw [if_neg hc] at h
      cases hcb : st.current_bullet with
      | some i =>
        rw [hcb] at h
        simp only at h
        have hl := congrArg List.length h
        simp [modifyIdx_length] at hl
      | none =>
        rw [hcb] at h
        simp only at h
        by_cases hd : st.list_depth > 0
        · rw [if_pos hd] at h
          simp only at h
          have := List.append_cancel_left h
          simp at this
        · rw [if_neg hd] at h
          simp only at h
          have := List.append_cancel_left h
          simp at this
  · intro hc
    rw [if_pos hc]

/-- C2 witness: a line at 17pt (strictly more than 6pt below `body_size = 24`
and strictly more than 10pt below `title_size = 40`) is emitted as a Label. -/
theorem label_rule_iff_witness :
    (lineStep ⟨40, 24⟩ 100 0 initState ⟨[⟨"tiny".data, "Helvetica".data, 17⟩], 0⟩).elements
      = initState.elements ++
        [Element.label (nbSpans ⟨[⟨"tiny".data, "Helvetica".data, 17⟩], 0⟩)] :=
  (label_rule_iff ⟨40, 24⟩ 100 0 initState ⟨[⟨"tiny".data, "Helvetica".data, 17⟩], 0⟩
    (by with_unfolding_all decide) (by with_unfolding_all decide)
    (by with_unfolding_all decide) (by with_unfolding_all decide)
    (by with_unfolding_all decide) (by with_unfolding_all decide)).mpr
    (by with_unfolding_all decide)

-- --- C3 ------------------------------------------------------------------------

theorem isLabelEl_ne_equation {e : Element} (h : isLabelEl e = true) :
    isEquationEl e = false := by
  cases e <;> simp [isLabelEl, isEquationEl] at h ⊢

/-- C3: a maximal run of consecutive Label elements at the head of the
sequence is replaced by exactly one Code element, whose lines are each
label's plain text in order, if and only if the run has at least 3 labels
and at least 2 of their plain texts contain one of `;`, `=`, `(`; otherwise
all labels of the run pass through unchanged, and post-processing continues
after the run either way. -/
theorem label_run_code_promotion (run rest : List Element)
    (hne : run ≠ [])
    (hlab : ∀ x ∈ run, isLabelEl x = true)
    (hrest : ∀ y, rest.head? = some y → isLabelEl y = false) :
    postprocess_elements (run ++ rest) =
      (if run.length ≥ 3 ∧
          ((run.map fun lb => plain_text lb.spansOf).filter hasCodeChar).length ≥ 2
       then [Element.code (run.map fun lb => plain_text lb.spansOf)]
       else run) ++ postprocess_elements rest := by
  cases run with
  | nil => exact absurd rfl hne
  | cons e run' =>
    have he : isLabelEl e = true := hlab e (List.mem_cons_self e run')
    have hrun' : ∀ a ∈ run', isLabelEl a = true :=
      fun a ha => hlab a (List.mem_cons_of_mem e ha)
    have htwr : rest.takeWhile isLabelEl = [] := by
      cases rest with
      | nil => rfl
      | cons y t =>
        rw [List.takeWhile_cons_of_neg]
        simp [hrest y rfl]
    have hdwr : rest.dropWhile isLabelEl = rest := by
      cases rest with
      | nil => rfl
      | cons y t =>
        rw [List.dropWhile_cons_of_neg]
        simp [hrest y rfl]
    rw [List.cons_append]
    rw [postprocess_elements]
    rw [if_neg (by simp [isLabelEl_ne_equation he]), if_pos (by simp [he])]
    rw [List.takeWhile_append_of_pos hrun', List.dropWhile_append_of_pos hrun',
      htwr, hdwr, List.append_nil]
    by_cases hc : (e :: run').length ≥ 3 ∧
        (((e :: run').map fun lb => plain_text lb.spansOf).filter hasCodeChar).length ≥ 2
    · rw [if_pos hc, if_pos hc]
      rfl
    · rw [if_neg hc, if_neg hc]

/-- C3 witness: 3 consecutive labels with exactly 2 texts containing `=`
become one Code element; the same 3 labels with only 1 match stay Labels. -/
theorem label_run_code_promotion_witness :
    postprocess_elements
        [Element.label [⟨"a=1".data, "Helv".data, 12⟩],
         Element.label [⟨"b=2".data, "Helv".data, 12⟩],
         Element.label [⟨"c".data, "Helv".data, 12⟩]]
      = [Element.code ["a=1".data, "b=2".data, "c".data]]
    ∧ postprocess_elements
        [Element.label [⟨"a=1".data, "Helv".data, 12⟩],
         Element.label [⟨"b".data, "Helv".data, 12⟩],
         Element.label [⟨"c".data, "Helv".data, 12⟩]]
      = [Element.label [⟨"a=1".data, "Helv".data, 12⟩],
         Element.label [⟨"b".data, "Helv".data, 12⟩],
         Element.label [⟨"c".data, "Helv".data, 12⟩]] := by
  constructor
  · have h := label_run_code_promotion
      [Element.label [⟨"a=1".data, "Helv".data, 12⟩],
       Element.label [⟨"b=2".data, "Helv".data, 12⟩],
       Element.label [⟨"c".data, "Helv".data, 12⟩]] []
      (by decide) (by decide) (by simp)
    simp only [List.append_nil] at h
    rw [h, if_pos (by decide)]
    simp only [postprocess_elements, List.append_nil]
    decide
  · have h := label_run_code_promotion
      [Element.label [⟨"a=1".data, "Helv".data, 12⟩],
       Element.label [⟨"b".data, "Helv".data, 12⟩],
       Element.label [⟨"c".data, "Helv".data, 12⟩]] []
      (by decide) (by decide) (by simp)
    simp only [List.append_nil] at h
    rw [h, if_neg (by decide)]
    simp only [postprocess_elements, List.append_nil]

-- --- C4 ------------------------------------------------------------------------

/-- No two adjacent elements of the list are both equations. -/
def noTwoAdjacentEquations (l : List Element) : Prop :=
  List.Chain' (fun a b => ¬(isEquationEl a = true ∧ isEquationEl b = true)) l

theorem head?_dropWhile_eq_false {p : α → Bool} {l : List α} {y : α}
    (hy : (l.dropWhile p).head? = some y) : p y = false := by
  have h := List.head?_dropWhile_not p l
  rw [hy] at h
  exact h

/-- The head of a post-processed list is not an equation when the head of
the input is not an equation. -/
theorem postprocess_head_not_equation (l : List Element)
    (hl : ∀ y, l.head? = some y → isEquationEl y = false) :
    ∀ y, (postprocess_elements l).head? = some y → isEquationEl y = false := by
  cases l with
  | nil =>
    intro y hy
    simp [postprocess_elements] at hy
  | cons e rest =>
    have he : isEquationEl e = false := hl e rfl
    intro y hy
    simp only [postprocess_elements] at hy
    rw [if_neg (by simp [he])] at hy
    split at hy
    · split at hy
      · simp only [List.head?_cons, Option.some.injEq] at hy
        subst hy
        rfl
      · simp only [List.cons_append, List.head?_cons, Option.some.injEq] at hy
        subst hy
        exact he
    · simp only [List.head?_cons, Option.some.injEq] at hy
      subst hy
      exact he

theorem chain'_append_of_no_equation_left (l₁ l₂ : List Element)
    (h1 : ∀ a ∈ l₁, isEquationEl a = false)
    (h2 : noTwoAdjacentEquations l₂) :
    noTwoAdjacentEquations (l₁ ++ l₂) := by
  induction l₁ with
  | nil => simpa using h2
  | cons a t ih =>
    rw [List.cons_append]
    refine List.chain'_cons'.mpr ⟨?_, ih fun x hx => h1 x (List.mem_cons_of_mem a hx)⟩
    intro y _
    simp [h1 a (List.mem_cons_self a t)]

theorem postprocess_noTwoAdjacentEquations (l : List Element) :
    noTwoAdjacentEquations (postprocess_elements l) := by
  induction l using postprocess_elements.induct with
  | case1 =>
    simp [postprocess_elements, noTwoAdjacentEquations]
  | case2 e rest heq rest' ih =>
    simp only [postprocess_elements]
    rw [if_pos heq]
    refine List.chain'_cons'.mpr ⟨?_, ih⟩
    intro y hy
    have hy' : isEquationEl y = false :=
      postprocess_head_not_equation _ (fun z hz => head?_dropWhile_eq_false hz) y hy
    simp [hy']
  | case3 e rest hneq hlb run rest' texts hc ih =>
    simp only [postprocess_elements]
    rw [if_neg hneq, if_pos hlb, if_pos hc]
    refine List.chain'_cons'.mpr ⟨?_, ih⟩
    intro y _
    simp [isEquationEl]
  | case4 e rest hneq hlb run rest' texts hc ih =>
    simp only [postprocess_elements]
    rw [if_neg hneq, if_pos hlb, if_neg hc]
    refine chain'_append_of_no_equation_left _ _ ?_ ih
    intro a ha
    rcases List.mem_cons.mp ha with rfl | ha'
    · exact isLabelEl_ne_equation hlb
    · exact isLabelEl_ne_equation (List.mem_takeWhile_imp ha')
  | case5 e rest hneq hlb ih =>
    simp only [postprocess_elements]
    rw [if_neg hneq, if_neg hlb]
    refine List.chain'_cons'.mpr ⟨?_, ih⟩
    intro y hy
    have he : isEquationEl e = false := by simpa using hneq
    simp [he]

/-- C4: every maximal run of 2 or more consecutive Equation elements is
collapsed into a single Equation whose span sequence is the in-order
concatenation of all member spans, a run of length 1 passes through
unchanged, and after the post-processing pass no two Equation elements are
ever adjacent. -/
theorem equation_merge_and_no_adjacent :
    (∀ (sp : List Span) (run rest : List Element),
        (∀ x ∈ run, isEquationEl x = true) →
        (∀ y, rest.head? = some y → isEquationEl y = false) →
        postprocess_elements (Element.equation sp :: (run ++ rest)) =
          (if run = [] then Element.equation sp
           else Element.equation (sp ++ run.flatMap Element.spansOf))
            :: postprocess_elements rest)
    ∧ ∀ l : List Element, noTwoAdjacentEquations (postprocess_elements l) := by
  constructor
  · intro sp run rest hrun hrest
    have htwr : rest.takeWhile isEquationEl = [] := by
      cases rest with
      | nil => rfl
      | cons y t =>
        rw [List.takeWhile_cons_of_neg]
        simp [hrest y rfl]
    have hdwr : rest.dropWhile isEquationEl = rest := by
      cases rest with
      | nil => rfl
      | cons y t =>
        rw [List.dropWhile_cons_of_neg]
        simp [hrest y rfl]
    have htw : (run ++ rest).takeWhile isEquationEl = run := by
      rw [List.takeWhile_append_of_pos hrun, htwr, List.append_nil]
    have hdw : (run ++ rest).dropWhile isEquationEl = rest := by
      rw [List.dropWhile_append_of_pos hrun, hdwr]
    simp only [postprocess_elements]
    rw [if_pos (show isEquationEl (Element.equation sp) = true from rfl)]
    rw [htw, hdw]
    by_cases hr : run = []
    · subst hr
      simp [Element.spansOf]
    · have hlen : run.length > 0 := List.length_pos.mpr hr
      rw [if_pos hlen, if_neg hr]
      rfl
  · exact postprocess_noTwoAdjacentEquations

/-- C4 witness: three adjacent equations followed by a body collapse into
one Equation carrying all three spans, in order, and the result has no two
adjacent equations. -/
theorem equation_merge_and_no_adjacent_witness :
    postprocess_elements
        [Element.equation [⟨"x".data, "CambriaMath".data, 20⟩],
         Element.equation [⟨"y".data, "CambriaMath".data, 20⟩],
         Element.equation [⟨"z".data, "CambriaMath".data, 20⟩],
         Element.body [⟨"b".data, "Helvetica".data, 24⟩]]
      = [Element.equation
           [⟨"x".data, "CambriaMath".data, 20⟩,
            ⟨"y".data, "CambriaMath".data, 20⟩,
            ⟨"z".data, "CambriaMath".data, 20⟩],
         Element.body [⟨"b".data, "Helvetica".data, 24⟩]]
    ∧ noTwoAdjacentEquations (postprocess_elements
        [Element.equation [⟨"x".data, "CambriaMath".data, 20⟩],
         Element.equation [⟨"y".data, "CambriaMath".data, 20⟩],
         Element.equation [⟨"z".data, "CambriaMath".data, 20⟩],
         Element.body [⟨"b".data, "Helvetica".data, 24⟩]]) := by
  constructor
  · have h := equation_merge_and_no_adjacent.1
      [⟨"x".data, "CambriaMath".data, 20⟩]
      [Element.equation [⟨"y".data, "CambriaMath".data, 20⟩],
       Element.equation [⟨"z".data, "CambriaMath".data, 20⟩]]
      [Element.body [⟨"b".data, "Helvetica".data, 24⟩]]
      (by decide)
      (by intro y hy; simp only [List.head?_cons, Option.some.injEq] at hy; subst hy; rfl)
    simp only [List.cons_append, List.nil_append] at h
    rw [h, if_neg (by decide)]
    simp only [postprocess_elements]
    rw [if_neg (by decide), if_neg (by decide)]
    simp [postprocess_elements, Element.spansOf]
  · exact equation_merge_and_no_adjacent.2 _

-- --- C6 ------------------------------------------------------------------------

theorem mem_modifyIdx {l : List α} {i : ℕ} {f : α → α} {a : α}
    (h : a ∈ modifyIdx l i f) : a ∈ l ∨ ∃ x ∈ l, a = f x := by
  induction l generalizing i with
  | nil => simp [modifyIdx] at h
  | cons b t ih =>
    cases i with
    | zero =>
      rcases List.mem_cons.mp h with rfl | h'
      · exact Or.inr ⟨b, List.mem_cons_self b t, rfl⟩
      · exact Or.inl (List.mem_cons_of_mem b h')
    | succ n =>
      rcases List.mem_cons.mp h with rfl | h'
      · exact Or.inl (List.mem_cons_self a t)
      · rcases ih h' with h1 | ⟨x, hx, rfl⟩
        · exact Or.inl (List.mem_cons_of_mem b h1)
        · exact Or.inr ⟨x, List.mem_cons_of_mem b hx, rfl⟩

theorem extendSpans_isRender (e : Element) (sp : List Span) :
    isRenderEl (e.extendSpans sp) = isRenderEl e := by
  cases e <;> rfl

theorem lineStep_no_render (fs : FontStats) (page_h : ℚ) (page_num : ℕ)
    (st : CState) (ln : PdfLine)
    (h : ∀ e ∈ st.elements, isRenderEl e = false) :
    ∀ e ∈ (lineStep fs page_h page_num st ln).elements, isRenderEl e = false := by
  intro e he
  simp only [lineStep] at he
  repeat' split at he
  all_goals
    first
      | exact h e he
      | (rcases List.mem_append.mp he with h1 | h1
         · exact h e h1
         · simp only [List.mem_singleton] at h1
           subst h1
           rfl)
      | (rcases mem_modifyIdx he with h1 | ⟨x, hx, rfl⟩
         · exact h e h1
         · rw [extendSpans_isRender]
           exact h x hx)

theorem classifyLines_no_render (fs : FontStats) (page_h : ℚ) (page_num : ℕ)
    (lines : List PdfLine) :
    ∀ e ∈ (classifyLines fs page_h page_num lines).elements, isRenderEl e = false := by
  suffices H : ∀ (st : CState), (∀ e ∈ st.elements, isRenderEl e = false) →
      ∀ e ∈ (lines.foldl (lineStep fs page_h page_num) st).elements,
        isRenderEl e = false by
    exact H initState (by simp [initState])
  induction lines with
  | nil => intro st h; simpa using h
  | cons ln rest ih =>
    intro st h
    rw [List.foldl_cons]
    exact ih _ (lineStep_no_render _ _ _ _ _ h)

theorem imageElements_no_render (page : PdfPage) (pn : ℕ) :
    ∀ e ∈ imageElements page pn, isRenderEl e = false := by
  intro e he
  simp only [imageElements, List.mem_filterMap] at he
  obtain ⟨p, _, hmap⟩ := he
  rcases Option.map_eq_some'.mp hmap with ⟨d, _, rfl⟩
  rfl

theorem postprocess_no_render (l : List Element) :
    (∀ e ∈ l, isRenderEl e = false) →
      ∀ e ∈ postprocess_elements l, isRenderEl e = false := by
  induction l using postprocess_elements.induct with
  | case1 => intro _ x hx; simp [postprocess_elements] at hx
  | case2 e rest heq rest' ih =>
    intro h x hx
    simp only [postprocess_elements] at hx
    rw [if_pos heq] at hx
    rcases List.mem_cons.mp hx with rfl | hx'
    · split
      · rfl
      · exact h e (List.mem_cons_self e rest)
    · exact ih (fun y hy => h y (List.mem_cons_of_mem e
        ((List.dropWhile_sublist _).subset hy))) x hx'
  | case3 e rest hneq hlb run rest' texts hc ih =>
    intro h x hx
    simp only [postprocess_elements] at hx
    rw [if_neg hneq, if_pos hlb, if_pos hc] at hx
    rcases List.mem_cons.mp hx with rfl | hx'
    · rfl
    · exact ih (fun y hy => h y (List.mem_cons_of_mem e
        ((List.dropWhile_sublist _).subset hy))) x hx'
  | case4 e rest hneq hlb run rest' texts hc ih =>
    intro h x hx
    simp only [postprocess_elements] at hx
    rw [if_neg hneq, if_pos hlb, if_neg hc] at hx
    rcases List.mem_append.mp hx with h1 | h1
    · rcases List.mem_cons.mp h1 with rfl | h2
      · exact h x (List.mem_cons_self x rest)
      · exact h x (List.mem_cons_of_mem e ((List.takeWhile_sublist _).subset h2))
    · exact ih (fun y hy => h y (List.mem_cons_of_mem e
        ((List.dropWhile_sublist _).subset hy))) x h1
  | case5 e rest hneq hlb ih =>
    intro h x hx
    simp only [postprocess_elements] at hx
    rw [if_neg hneq, if_neg hlb] at hx
    rcases List.mem_cons.mp hx with rfl | hx'
    · exact h x (List.mem_cons_self x rest)
    · exact ih (fun y hy => h y (List.mem_cons_of_mem e hy)) x hx'

theorem extract_pdf_page_no_render (fs : FontStats) (page : PdfPage) (pn : ℕ) :
    ∀ e ∈ (extract_pdf_page fs page pn).1, isRenderEl e = false := by
  intro e he
  simp only [extract_pdf_page] at he
  refine postprocess_no_render _ ?_ e he
  intro x hx
  rcases List.mem_append.mp hx with h1 | h1
  · exact classifyLines_no_render _ _ _ _ x h1
  · exact imageElements_no_render _ _ x h1

theorem page_needs_render_iff (page : PdfPage) :
    page_needs_render page = true ↔
      (page.drawings > 4 ∨ ∃ b ∈ page.blocks, b.btype = 0 ∧ ∃ l ∈ b.lines,
        ∃ s ∈ l.spans, pyStrip s.text ≠ [] ∧ is_math s.font = true) := by
  unfold page_needs_render
  by_cases hd : page.drawings > 4
  · simp [hd]
  · rw [if_neg hd]
    simp only [List.any_eq_true, List.mem_filter, beq_iff_eq, Bool.and_eq_true,
      Bool.not_eq_true', List.isEmpty_eq_false]
    constructor
    · rintro ⟨b, ⟨hb, hb0⟩, l, hl, s, hs, hne, hm⟩
      exact Or.inr ⟨b, hb, hb0, l, hl, s, hs, hne, hm⟩
    · rintro (h | ⟨b, hb, hb0, l, hl, s, hs, hne, hm⟩)
      · exact absurd h hd
      · exact ⟨b, ⟨hb, hb0⟩, l, hl, s, hs, hne, hm⟩

/-- C6: in mode `all` a Render element is always appended after all other
page elements; in mode `none` never; in mode `auto` it is appended iff the
page has more than 4 vector drawing primitives or contains a non-blank
math-font span; and the extracted page elements themselves never contain a
Render element, so an attached Render is the last element of the page. -/
theorem render_policy (render_mode : String) (fs : FontStats) (page : PdfPage) (pn : ℕ) :
    (render_mode = RENDER_ALL →
      buildPage render_mode fs page pn
        = (extract_pdf_page fs page pn).1
            ++ [Element.render page.renderPng ("Slide " ++ toString (pn + 1))])
    ∧ (render_mode = RENDER_NONE →
        buildPage render_mode fs page pn = (extract_pdf_page fs page pn).1)
    ∧ (render_mode = RENDER_AUTO →
        ((buildPage render_mode fs page pn
            = (extract_pdf_page fs page pn).1
                ++ [Element.render page.renderPng ("Slide " ++ toString (pn + 1))])
          ↔ (page.drawings > 4 ∨ ∃ b ∈ page.blocks, b.btype = 0 ∧ ∃ l ∈ b.lines,
              ∃ s ∈ l.spans, pyStrip s.text ≠ [] ∧ is_math s.font = true))
        ∧ (¬(page.drawings > 4 ∨ ∃ b ∈ page.blocks, b.btype = 0 ∧ ∃ l ∈ b.lines,
              ∃ s ∈ l.spans, pyStrip s.text ≠ [] ∧ is_math s.font = true) →
            buildPage render_mode fs page pn = (extract_pdf_page fs page pn).1))
    ∧ (∀ e ∈ (extract_pdf_page fs page pn).1, isRenderEl e = false) := by
  refine ⟨?_, ?_, ?_, extract_pdf_page_no_render fs page pn⟩
  · intro h
    subst h
    unfold buildPage
    rw [if_pos (Or.inl rfl)]
  · intro h
    subst h
    unfold buildPage
    rw [if_neg]
    rintro (h1 | ⟨h1, _⟩) <;> simp [RENDER_NONE, RENDER_ALL, RENDER_AUTO] at h1
  · intro h
    subst h
    unfold buildPage
    by_cases hn : page_needs_render page = true
    · rw [if_pos (Or.inr ⟨rfl, hn⟩)]
      refine ⟨⟨fun _ => (page_needs_render_iff page).mp hn, fun _ => rfl⟩, ?_⟩
      intro hc
      exact absurd ((page_needs_render_iff page).mp hn) hc
    · rw [if_neg]
      · constructor
        · constructor
          · intro heq
            exfalso
            have := congrArg List.length heq
            simp at this
          · intro hc
            exact absurd ((page_needs_render_iff page).mpr hc) hn
        · intro _
          rfl
      · rintro (h1 | ⟨_, h2⟩)
        · simp [RENDER_AUTO, RENDER_ALL] at h1
        · exact hn h2

/-- C6 witness: a drawing-free math-free page in mode `auto` gets no Render
element, while mode `all` always appends one as the final element. -/
theorem render_policy_witness :
    (buildPage "auto" ⟨40, 24⟩ ⟨100, [], 4, [], "png"⟩ 0
      = (extract_pdf_page ⟨40, 24⟩ ⟨100, [], 4, [], "png"⟩ 0).1)
    ∧ (buildPage "all" ⟨40, 24⟩ ⟨100, [], 4, [], "png"⟩ 0
      = (extract_pdf_page ⟨40, 24⟩ ⟨100, [], 4, [], "png"⟩ 0).1
          ++ [Element.render "png" ("Slide " ++ toString (0 + 1))]) :=
  ⟨((render_policy "auto" ⟨40, 24⟩ ⟨100, [], 4, [], "png"⟩ 0).2.2.1 rfl).2
      (by rintro (h | ⟨b, hb, _⟩) <;> simp_all),
   (render_policy "all" ⟨40, 24⟩ ⟨100, [], 4, [], "png"⟩ 0).1 rfl⟩

-- --- C7 ------------------------------------------------------------------------

/-- The characters escaped by the Markdown renderer: backslash plus the
special set `*_`, backtick, brackets, parens, `#`, `>`. -/
def mdSpecials : List Char := '\\' :: "*_`[]()#>".data

/-- Per-character specification of the Markdown escape. -/
def mdEscChar (c : Char) : List Char :=
  if c ∈ mdSpecials then ['\\', c] else [c]

theorem replaceAll_append (a b : List Char) (c : Char) (rep : List Char) :
    replaceAll (a ++ b) c rep = replaceAll a c rep ++ replaceAll b c rep := by
  simp [replaceAll]

theorem mdEscape_append (a b : List Char) :
    mdEscape (a ++ b) = mdEscape a ++ mdEscape b := by
  unfold mdEscape
  rw [replaceAll_append]
  generalize replaceAll a '\\' ['\\', '\\'] = x
  generalize replaceAll b '\\' ['\\', '\\'] = y
  generalize "*_`[]()#>".data = l
  induction l generalizing x y with
  | nil => rfl
  | cons ch t ih =>
    simp only [List.foldl_cons]
    rw [replaceAll_append]
    exact ih _ _

theorem mdEscape_singleton (c : Char) : mdEscape [c] = mdEscChar c := by
  by_cases h0 : c = '\\'
  · subst h0; decide
  by_cases h1 : c = '*'
  · subst h1; decide
  by_cases h2 : c = '_'
  · subst h2; decide
  by_cases h3 : c = '`'
  · subst h3; decide
  by_cases h4 : c = '['
  · subst h4; decide
  by_cases h5 : c = ']'
  · subst h5; decide
  by_cases h6 : c = '('
  · subst h6; decide
  by_cases h7 : c = ')'
  · subst h7; decide
  by_cases h8 : c = '#'
  · subst h8; decide
  by_cases h9 : c = '>'
  · subst h9; decide
  have hl : "*_`[]()#>".data = ['*', '_', '`', '[', ']', '(', ')', '#', '>'] := rfl
  simp only [mdEscape, hl, List.foldl_cons, List.foldl_nil]
  simp [replaceAll, mdEscChar, mdSpecials, h0, h1, h2, h3, h4, h5, h6, h7, h8, h9]

theorem mdEscape_flatMap (cs : List Char) : mdEscape cs = cs.flatMap mdEscChar := by
  induction cs with
  | nil => decide
  | cons c t ih =>
    rw [show c :: t = [c] ++ t from rfl, mdEscape_append, ih, mdEscape_singleton]
    simp

/-- C7: the Markdown escape rewrites every character independently,
backslash-escaping each occurrence of the special characters (and the
backslash itself) and keeping every other character; a math span's text is
emitted verbatim with no escaping; a non-math span is wrapped in
`***`/`**`/`*` markers with bold+italic taking precedence, the markers
themselves unescaped and the inner text escaped.  In particular a literal
`"*bold*"` plain span renders with backslash-escaped asterisks while an
actually-bold span of the same text renders with real `**` markers. -/
theorem spans_to_md_escaping :
    (∀ cs : List Char, mdEscape cs = cs.flatMap mdEscChar)
    ∧ (∀ s : Span, is_math s.font = true → spans_to_md [s] = s.text)
    ∧ (∀ s : Span, s.text ≠ [] → is_math s.font = false →
        spans_to_md [s] =
          if fontBold s.font && fontItalic s.font then
            "***".data ++ s.text.flatMap mdEscChar ++ "***".data
          else if fontBold s.font then
            "**".data ++ s.text.flatMap mdEscChar ++ "**".data
          else if fontItalic s.font then
            "*".data ++ s.text.flatMap mdEscChar ++ "*".data
          else s.text.flatMap mdEscChar)
    ∧ spans_to_md [⟨"*bold*".data, "Helvetica".data, 24⟩] = "\\*bold\\*".data
    ∧ spans_to_md [⟨"*bold*".data, "Helvetica-Bold".data, 24⟩] = "**\\*bold\\***".data := by
  refine ⟨mdEscape_flatMap, ?_, ?_, by decide, by decide⟩
  · intro s hm
    by_cases ht : s.text = []
    · simp [spans_to_md, spanToMd, ht]
    · simp [spans_to_md, spanToMd, ht, hm]
  · intro s ht hm
    simp [spans_to_md, spanToMd, ht, hm, mdEscape_flatMap]

/-- C7 witness: a bold-italic span's text is escaped inside the `***`
markers this renderer inserts. -/
theorem spans_to_md_escaping_witness :
    spans_to_md [⟨"*bold*".data, "Helv-BoldItalic".data, 24⟩]
      = "***\\*bold\\****".data := by
  have h := spans_to_md_escaping.2.2.1 ⟨"*bold*".data, "Helv-BoldItalic".data, 24⟩
    (by decide) (by decide)
  rw [h]
  decide

-- --- C8 ------------------------------------------------------------------------

/-- Per-character specification of `html.escape`. -/
def htmlEscChar (c : Char) : List Char :=
  if c = '&' then "&amp;".data
  else if c = '<' then "&lt;".data
  else if c = '>' then "&gt;".data
  else if c = '"' then "&quot;".data
  else if c = '\'' then "&#x27;".data
  else [c]

theorem esc_append (a b : List Char) : esc (a ++ b) = esc a ++ esc b := by
  simp only [esc, replaceAll_append]

theorem esc_singleton (c : Char) : esc [c] = htmlEscChar c := by
  by_cases h1 : c = '&'
  · subst h1; decide
  by_cases h2 : c = '<'
  · subst h2; decide
  by_cases h3 : c = '>'
  · subst h3; decide
  by_cases h4 : c = '"'
  · subst h4; decide
  by_cases h5 : c = '\''
  · subst h5; decide
  simp [esc, replaceAll, htmlEscChar, h1, h2, h3, h4, h5]

theorem esc_flatMap (cs : List Char) : esc cs = cs.flatMap htmlEscChar := by
  induction cs with
  | nil => decide
  | cons c t ih =>
    rw [show c :: t = [c] ++ t from rfl, esc_append, ih, esc_singleton]
    simp

theorem not_mem_lt_htmlEscChar (c : Char) : '<' ∉ htmlEscChar c := by
  by_cases h1 : c = '&'
  · subst h1; decide
  by_cases h2 : c = '<'
  · subst h2; decide
  by_cases h3 : c = '>'
  · subst h3; decide
  by_cases h4 : c = '"'
  · subst h4; decide
  by_cases h5 : c = '\''
  · subst h5; decide
  simp [htmlEscChar, h1, h2, h3, h4, h5]
  exact fun he => h2 he.symm

theorem not_mem_lt_esc (cs : List Char) : '<' ∉ esc cs := by
  rw [esc_flatMap]
  intro h
  rcases List.mem_flatMap.mp h with ⟨c, _, hc⟩
  exact not_mem_lt_htmlEscChar c hc

/-- An infix of an append is an infix of one side, or straddles the seam. -/
theorem infix_append_split {α : Type} {w a b : List α} (h : w <:+: a ++ b) :
    w <:+: a ∨ w <:+: b ∨
      ∃ s p, s ≠ [] ∧ p ≠ [] ∧ s <:+ a ∧ p <+: b ∧ s ++ p = w := by
  induction a with
  | nil => exact Or.inr (Or.inl (by simpa using h))
  | cons x a' ih =>
    rw [List.cons_append] at h
    rcases List.infix_cons_iff.mp h with hp | hi
    · rcases List.prefix_cons_iff.mp hp with rfl | ⟨t, rfl, ht⟩
      · exact Or.inl List.nil_infix
      · by_cases hlen : t.length ≤ a'.length
        · have hta : t <+: a' :=
            List.prefix_of_prefix_length_le ht (List.prefix_append a' b) hlen
          exact Or.inl ((List.cons_prefix_cons.mpr ⟨rfl, hta⟩).isInfix)
        · push_neg at hlen
          have haw : a' <+: t :=
            List.prefix_of_prefix_length_le (List.prefix_append a' b) ht (le_of_lt hlen)
          obtain ⟨p, rfl⟩ := haw
          have hp' : p <+: b := by
            obtain ⟨r, hr⟩ := ht
            rw [List.append_assoc] at hr
            exact ⟨r, List.append_cancel_left hr⟩
          have hpne : p ≠ [] := by
            intro h0
            subst h0
            simp at hlen
          exact Or.inr (Or.inr ⟨x :: a', p, by simp, hpne, List.suffix_refl _, hp', by simp⟩)
    · rcases ih hi with h1 | h2 | ⟨s, p, hs, hp, hsa, hpb, hw⟩
      · exact Or.inl (List.infix_cons h1)
      · exact Or.inr (Or.inl h2)
      · exact Or.inr (Or.inr ⟨s, p, hs, hp, hsa.trans (List.suffix_cons x a'), hpb, hw⟩)

/-- The only nonempty prefix of `"<script>"` ending in `>` is the whole
string. -/
theorem script_prefix_of_gt (s : List Char) (hs : s <+: "<script>".data)
    (hlast : s.reverse.head? = some '>') : s = "<script>".data := by
  have hlen : s.length ≤ 8 := by simpa using hs.length_le
  have heq : s = ("<script>".data).take s.length := List.prefix_iff_eq_take.mp hs
  have h8 : s.length = 0 ∨ s.length = 1 ∨ s.length = 2 ∨ s.length = 3 ∨ s.length = 4 ∨
      s.length = 5 ∨ s.length = 6 ∨ s.length = 7 ∨ s.length = 8 := by omega
  rcases h8 with h | h | h | h | h | h | h | h | h <;>
    rw [heq, h] at hlast ⊢ <;>
    first
      | exact absurd hlast (by decide)
      | decide

theorem suffix_reverse_head {q s : List Char} (hs : s <:+ q) (hne : s ≠ [])
    (hq : q.reverse.head? = some '>') : s.reverse.head? = some '>' := by
  have h1 : s.reverse <+: q.reverse := List.reverse_prefix.mpr hs
  cases hsr : s.reverse with
  | nil =>
    exact absurd (by simpa using congrArg List.reverse hsr) hne
  | cons c t =>
    cases hqr : q.reverse with
    | nil =>
      rw [hsr, hqr] at h1
      simp at h1
    | cons d u =>
      rw [hsr, hqr] at h1
      have hcd := (List.cons_prefix_cons.mp h1).1
      rw [hqr] at hq
      simp only [List.head?_cons, Option.some.injEq] at hq
      simp [hcd, hq]

theorem script_not_infix_of_no_lt {q : List Char} (h : '<' ∉ q) :
    ¬ ("<script>".data <:+: q) :=
  fun hi => h (hi.subset (by decide))

theorem suffix_prefix_empty_of_no_lt {q s : List Char} (h : '<' ∉ q)
    (hs : s <:+ q) (hp : s <+: "<script>".data) (hne : s ≠ []) : False := by
  cases s with
  | nil => exact hne rfl
  | cons c t =>
    rw [show ("<script>".data) = '<' :: "script>".data from rfl] at hp
    have hc := (List.cons_prefix_cons.mp hp).1
    subst hc
    exact h (hs.subset (List.mem_cons_self _ _))

theorem script_straddle_gt {q s p : List Char} (hq : q.reverse.head? = some '>')
    (hs : s <:+ q) (hsp : s ++ p = "<script>".data) (hsne : s ≠ [])
    (hpne : p ≠ []) : False := by
  have hrev : s.reverse.head? = some '>' := suffix_reverse_head hs hsne hq
  have hse : s = "<script>".data := script_prefix_of_gt s ⟨p, hsp⟩ hrev
  rw [hse] at hsp
  have hlen := congrArg List.length hsp
  rw [List.length_append] at hlen
  exact hpne (List.length_eq_zero.mp (by omega))

theorem script_not_infix_wrap {tagO E tagC : List Char}
    (hO : ¬ ("<script>".data <:+: tagO)) (hOr : tagO.reverse.head? = some '>')
    (hE : '<' ∉ E)
    (hC : ¬ ("<script>".data <:+: tagC)) :
    ¬ ("<script>".data <:+: tagO ++ (E ++ tagC)) := by
  intro h
  rcases infix_append_split h with h1 | h1 | ⟨s, p, hsne, hpne, hsa, hpb, hw⟩
  · exact hO h1
  · rcases infix_append_split h1 with h2 | h2 | ⟨s, p, hsne, hpne, hsa, hpb, hw⟩
    · exact script_not_infix_of_no_lt hE h2
    · exact hC h2
    · exact suffix_prefix_empty_of_no_lt hE hsa ⟨p, hw⟩ hsne
  · exact script_straddle_gt hOr hsa hw hsne hpne

theorem reverse_head_append (X Y : List Char)
    (h : Y.reverse.head? = some '>') : ((X ++ Y).reverse).head? = some '>' := by
  rw [List.reverse_append]
  cases hyr : Y.reverse with
  | nil => rw [hyr] at h; simp at h
  | cons c t =>
    rw [hyr] at h
    simpa using h

theorem spanToHtml_part_safe (s : Span) :
    ¬ ("<script>".data <:+: spanToHtml s)
    ∧ ('<' ∉ spanToHtml s ∨ (spanToHtml s).reverse.head? = some '>') := by
  simp only [spanToHtml]
  by_cases ht : s.text = []
  · rw [if_pos ht]
    exact ⟨fun h => absurd (List.infix_nil.mp h) (by decide), Or.inl (by simp)⟩
  · rw [if_neg ht]
    split
    · refine ⟨?_, Or.inr (reverse_head_append _ _ (by decide))⟩
      rw [List.append_assoc]
      exact script_not_infix_wrap (by decide) (by decide) (not_mem_lt_esc _) (by decide)
    · split
      · refine ⟨?_, Or.inr (reverse_head_append _ _ (by decide))⟩
        rw [List.append_assoc]
        exact script_not_infix_wrap (by decide) (by decide) (not_mem_lt_esc _) (by decide)
      · split
        · refine ⟨?_, Or.inr (reverse_head_append _ _ (by decide))⟩
          rw [List.append_assoc]
          exact script_not_infix_wrap (by decide) (by decide) (not_mem_lt_esc _) (by decide)
        · split
          · refine ⟨?_, Or.inr (reverse_head_append _ _ (by decide))⟩
            rw [List.append_assoc]
            exact script_not_infix_wrap (by decide) (by decide) (not_mem_lt_esc _) (by decide)
          · exact ⟨script_not_infix_of_no_lt (not_mem_lt_esc _),
              Or.inl (not_mem_lt_esc _)⟩

theorem script_not_infix_spans_to_html (spans : List Span) :
    ¬ ("<script>".data <:+: spans_to_html spans) := by
  induction spans with
  | nil =>
    intro h
    exact absurd (List.infix_nil.mp h) (by decide)
  | cons sp rest ih =>
    intro h
    rw [show spans_to_html (sp :: rest) = spanToHtml sp ++ spans_to_html rest from
      List.flatMap_cons ..] at h
    rcases infix_append_split h with h1 | h1 | ⟨s, p, hsne, hpne, hsa, hpb, hw⟩
    · exact (spanToHtml_part_safe sp).1 h1
    · exact ih h1
    · rcases (spanToHtml_part_safe sp).2 with hnl | hgt
      · exact suffix_prefix_empty_of_no_lt hnl hsa ⟨p, hw⟩ hsne
      · exact script_straddle_gt hgt hsa hw hsne hpne

/-- C8: `html.escape` rewrites every character independently (escaping
`&`, `<`, `>`, `"`, `'`), every span's text is escaped before the wrapping
element is added with bold+italic taking precedence over bold alone or
italic alone, and consequently no span list can ever produce the literal
substring `<script>` in the output of `spans_to_html`. -/
theorem spans_to_html_escaping :
    (∀ cs : List Char, esc cs = cs.flatMap htmlEscChar)
    ∧ (∀ s : Span, s.text ≠ [] →
        spans_to_html [s] =
          if is_math s.font then
            "<span class=\"math\">".data ++ esc s.text ++ "</span>".data
          else if fontBold s.font && fontItalic s.font then
            "<strong><em>".data ++ esc s.text ++ "</em></strong>".data
          else if fontBold s.font then
            "<strong>".data ++ esc s.text ++ "</strong>".data
          else if fontItalic s.font then
            "<em>".data ++ esc s.text ++ "</em>".data
          else esc s.text)
    ∧ (∀ spans : List Span, ¬ ("<script>".data <:+: spans_to_html spans)) := by
  refine ⟨esc_flatMap, ?_, script_not_infix_spans_to_html⟩
  intro s ht
  simp [spans_to_html, spanToHtml, ht]

/-- C8 witness: a bold span whose literal text is `<script>` renders with
the text HTML-escaped inside the `strong` element. -/
theorem spans_to_html_escaping_witness :
    spans_to_html [⟨"<script>".data, "Helv-Bold".data, 24⟩]
      = "<strong>&lt;script&gt;</strong>".data := by
  have h := spans_to_html_escaping.2.1 ⟨"<script>".data, "Helv-Bold".data, 24⟩ (by decide)
  rw [h]
  decide

-- --- C10 -----------------------------------------------------------------------

/-- C10: if the line consists only of a bullet glyph, possibly with
whitespace (so that removing the leading glyph would leave no spans),
`strip_bullet_char` returns the original span list unchanged, and the
resulting element's plain text still contains the glyph instead of being
empty. -/
theorem strip_bullet_char_glyph_only (spans : List Span) (g : Char)
    (hg : g ∈ bulletStripChars)
    (h1 : ∀ s ∈ spans, pyStrip s.text ≠ [])
    (h2 : plain_text spans = [g]) :
    strip_bullet_char spans = spans ∧ plain_text (strip_bullet_char spans) = [g] := by
  suffices hmain : strip_bullet_char spans = spans by
    exact ⟨hmain, by rw [hmain]; exact h2⟩
  have hgs : isPySpace g = false := by
    have hall : ∀ c ∈ bulletStripChars, isPySpace c = false := by decide
    exact hall g hg
  obtain ⟨s, rfl⟩ : ∃ s, spans = [s] := by
    cases spans with
    | nil => simp [plain_text, pyStrip, pyLStrip, pyRStrip] at h2
    | cons s1 t =>
      cases t with
      | nil => exact ⟨s1, rfl⟩
      | cons s2 t2 =>
        exfalso
        have hc1 : 0 < (s1.text).countP (fun c => !isPySpace c) := by
          rw [List.countP_pos_iff]
          have hh := h1 s1 (by simp)
          rw [pyStrip_ne_nil_iff] at hh
          exact hh
        have hc2 : 0 < (s2.text).countP (fun c => !isPySpace c) := by
          rw [List.countP_pos_iff]
          have hh := h1 s2 (by simp)
          rw [pyStrip_ne_nil_iff] at hh
          exact hh
        have h2c := congrArg (List.countP (fun c => !isPySpace c)) h2
        rw [plain_text, countP_pyStrip] at h2c
        rw [List.flatMap_cons, List.flatMap_cons, List.countP_append,
          List.countP_append] at h2c
        simp [List.countP_cons, hgs] at h2c
        omega
  have hs : pyStrip s.text = [g] := by
    simpa [plain_text] using h2
  obtain ⟨ws, hLs, hws⟩ :
      ∃ ws, pyLStrip s.text = g :: ws ∧ ∀ c ∈ ws, isPySpace c = true := by
    have hR2 : (pyLStrip s.text).reverse.dropWhile isPySpace = [g] := by
      have := congrArg List.reverse hs
      simpa [pyStrip, pyRStrip] using this
    have hsplit := List.takeWhile_append_dropWhile (p := isPySpace)
      (l := (pyLStrip s.text).reverse)
    rw [hR2] at hsplit
    refine ⟨((pyLStrip s.text).reverse.takeWhile isPySpace).reverse, ?_, ?_⟩
    · have hL2 := congrArg List.reverse hsplit
      simpa [List.reverse_append] using hL2.symm
    · intro c hc
      exact List.mem_takeWhile_imp (List.mem_reverse.mp hc)
  have hws' : pyLStrip ws = [] := by
    unfold pyLStrip
    rw [List.dropWhile_eq_nil_iff]
    intro x hx
    simp [hws x hx]
  have hout : stripBulletOut [s] false = [] := by
    simp only [stripBulletOut, Bool.false_eq_true, if_false]
    rw [hLs]
    simp only [hws']
    rw [if_pos hg]
    simp
  unfold strip_bullet_char
  rw [hout]
  simp

/-- C10 witness: a single span holding only a bullet and whitespace is
returned unchanged, its plain text still the glyph. -/
theorem strip_bullet_char_glyph_only_witness :
    strip_bullet_char [⟨" • ".data, "Helvetica".data, 24⟩]
        = [⟨" • ".data, "Helvetica".data, 24⟩]
    ∧ plain_text (strip_bullet_char [⟨" • ".data, "Helvetica".data, 24⟩]) = ['•'] :=
  strip_bullet_char_glyph_only [⟨" • ".data, "Helvetica".data, 24⟩] '•'
    (by decide) (by decide) (by decide)

-- --- C1 ------------------------------------------------------------------------

/-- The keys of the counter, in insertion order. -/
def keysOf (c : List (ℤ × ℕ)) : List ℤ := c.map Prod.fst

/-- Total count recorded for key `k` in an association list. -/
def assocMass (c : List (ℤ × ℕ)) (k : ℤ) : ℕ :=
  ((c.filter fun p => p.1 == k).map Prod.snd).sum

/-- The rounded font sizes observed in non-blank spans of the document. -/
def observedSizes (doc : List PdfPage) : List ℤ :=
  (sizeEntries doc).map Prod.fst

/-- Accumulated character mass of a rounded size over the document. -/
def charMass (doc : List PdfPage) (k : ℤ) : ℕ :=
  assocMass (sizeEntries doc) k

theorem assocMass_nil (k : ℤ) : assocMass [] k = 0 := rfl

theorem assocMass_cons (p : ℤ × ℕ) (t : List (ℤ × ℕ)) (k : ℤ) :
    assocMass (p :: t) k = (if p.1 = k then p.2 else 0) + assocMass t k := by
  by_cases h : p.1 = k
  · simp [assocMass, List.filter_cons, h]
  · simp [assocMass, List.filter_cons, h]

theorem assocMass_bump (c : List (ℤ × ℕ)) (k : ℤ) (n : ℕ) (k' : ℤ) :
    assocMass (bump c k n) k' = assocMass c k' + (if k' = k then n else 0) := by
  induction c with
  | nil =>
    by_cases h : k' = k
    · simp [bump, assocMass_cons, assocMass_nil, h]
    · have h' : ¬(k = k') := fun hh => h hh.symm
      simp [bump, assocMass_cons, assocMass_nil, h, h']
  | cons p t ih =>
    obtain ⟨k1, m⟩ := p
    by_cases h1 : k1 = k
    · subst h1
      rw [show bump ((k1, m) :: t) k1 n = (k1, m + n) :: t from by simp [bump]]
      by_cases h2 : k1 = k'
      · subst h2
        simp [assocMass_cons]
        omega
      · have h2' : ¬(k' = k1) := fun hh => h2 hh.symm
        simp [assocMass_cons, h2, h2']
    · rw [show bump ((k1, m) :: t) k n = (k1, m) :: bump t k n from by simp [bump, h1]]
      rw [assocMass_cons, assocMass_cons, ih]
      omega

theorem mem_keys_bump (c : List (ℤ × ℕ)) (k : ℤ) (n : ℕ) (k' : ℤ) :
    k' ∈ keysOf (bump c k n) ↔ k' ∈ keysOf c ∨ k' = k := by
  induction c with
  | nil => simp [bump, keysOf]
  | cons p t ih =>
    obtain ⟨k1, m⟩ := p
    by_cases h1 : k1 = k
    · subst h1
      rw [show bump ((k1, m) :: t) k1 n = (k1, m + n) :: t from by simp [bump]]
      simp [keysOf]
      tauto
    · rw [show bump ((k1, m) :: t) k n = (k1, m) :: bump t k n from by simp [bump, h1]]
      simp only [keysOf, List.map_cons, List.mem_cons] at ih ⊢
      rw [ih]
      tauto

theorem nodup_keys_bump (c : List (ℤ × ℕ)) (k : ℤ) (n : ℕ)
    (h : (keysOf c).Nodup) : (keysOf (bump c k n)).Nodup := by
  induction c with
  | nil => simp [bump, keysOf]
  | cons p t ih =>
    obtain ⟨k1, m⟩ := p
    simp only [keysOf, List.map_cons, List.nodup_cons] at h
    by_cases h1 : k1 = k
    · subst h1
      rw [show bump ((k1, m) :: t) k1 n = (k1, m + n) :: t from by simp [bump]]
      simp only [keysOf, List.map_cons, List.nodup_cons]
      exact h
    · rw [show bump ((k1, m) :: t) k n = (k1, m) :: bump t k n from by simp [bump, h1]]
      simp only [keysOf, List.map_cons, List.nodup_cons]
      refine ⟨?_, ih h.2⟩
      intro hmem
      rcases (mem_keys_bump t k n k1).mp hmem with hmem' | rfl
      · exact h.1 hmem'
      · exact h1 rfl

theorem assocMass_eq_zero_of_not_mem (c : List (ℤ × ℕ)) (k : ℤ)
    (h : k ∉ keysOf c) : assocMass c k = 0 := by
  induction c with
  | nil => rfl
  | cons p t ih =>
    simp only [keysOf, List.map_cons, List.mem_cons] at h
    push_neg at h
    rw [assocMass_cons, ih (by simpa [keysOf] using h.2)]
    have h' : ¬(p.1 = k) := fun hh => h.1 hh.symm
    simp [h']

theorem assocMass_of_mem_nodup (c : List (ℤ × ℕ)) (k : ℤ) (n : ℕ)
    (hmem : (k, n) ∈ c) (hnd : (keysOf c).Nodup) : assocMass c k = n := by
  induction c with
  | nil => simp at hmem
  | cons p t ih =>
    simp only [keysOf, List.map_cons, List.nodup_cons] at hnd
    rcases List.mem_cons.mp hmem with rfl | hmem'
    · rw [assocMass_cons]
      simp [assocMass_eq_zero_of_not_mem t k hnd.1]
    · have hk : p.1 ≠ k := by
        intro hh
        apply hnd.1
        rw [hh]
        exact List.mem_map_of_mem Prod.fst hmem'
      rw [assocMass_cons, ih hmem' hnd.2]
      simp [hk]

theorem maxKey_spec (c : List (ℤ × ℕ)) :
    c ≠ [] → maxKey c ∈ keysOf c ∧ ∀ k ∈ keysOf c, k ≤ maxKey c := by
  induction c with
  | nil => intro h; exact absurd rfl h
  | cons p t ih =>
    intro _
    obtain ⟨k1, m⟩ := p
    cases t with
    | nil =>
      constructor
      · simp [maxKey, keysOf]
      · intro k hk
        simp only [keysOf, List.map_cons, List.map_nil, List.mem_singleton] at hk
        simp [maxKey, hk]
    | cons q t2 =>
      have h2 := ih (by simp)
      rw [show maxKey ((k1, m) :: q :: t2) = max k1 (maxKey (q :: t2)) from rfl]
      constructor
      · rcases max_cases k1 (maxKey (q :: t2)) with ⟨heq, _⟩ | ⟨heq, _⟩
        · rw [heq]
          exact List.mem_cons_self _ _
        · rw [heq]
          exact List.mem_cons_of_mem _ h2.1
      · intro k hk
        rcases List.mem_cons.mp hk with rfl | hk'
        · exact le_max_left _ _
        · exact le_trans (h2.2 k hk') (le_max_right _ _)

theorem foldl_pick_spec (t : List (ℤ × ℕ)) : ∀ best : ℤ × ℕ,
    (t.foldl (fun best p => if p.2 > best.2 then p else best) best = best ∨
     t.foldl (fun best p => if p.2 > best.2 then p else best) best ∈ t)
    ∧ best.2 ≤ (t.foldl (fun best p => if p.2 > best.2 then p else best) best).2
    ∧ ∀ p ∈ t, p.2 ≤ (t.foldl (fun best p => if p.2 > best.2 then p else best) best).2 := by
  induction t with
  | nil =>
    intro best
    exact ⟨Or.inl rfl, le_refl _, by simp⟩
  | cons q t2 ih =>
    intro best
    rw [List.foldl_cons]
    obtain ⟨hmem, hle, hall⟩ := ih (if q.2 > best.2 then q else best)
    refine ⟨?_, ?_, ?_⟩
    · rcases hmem with heq | hmem'
      · rw [heq]
        by_cases hq : q.2 > best.2
        · rw [if_pos hq]
          exact Or.inr (List.mem_cons_self q t2)
        · rw [if_neg hq]
          exact Or.inl rfl
      · exact Or.inr (List.mem_cons_of_mem q hmem')
    · refine le_trans ?_ hle
      by_cases hq : q.2 > best.2
      · rw [if_pos hq]
        omega
      · rw [if_neg hq]
    · intro p hp
      rcases List.mem_cons.mp hp with rfl | hp'
      · refine le_trans ?_ hle
        by_cases hq : p.2 > best.2
        · rw [if_pos hq]
        · rw [if_neg hq]
          omega
      · exact hall p hp'

theorem mostCommon1_spec (c : List (ℤ × ℕ)) (h : c ≠ []) :
    mostCommon1 c ∈ c ∧ ∀ p ∈ c, p.2 ≤ (mostCommon1 c).2 := by
  cases c with
  | nil => exact absurd rfl h
  | cons e t =>
    obtain ⟨hmem, hle, hall⟩ := foldl_pick_spec t e
    rw [show mostCommon1 (e :: t)
        = t.foldl (fun best p => if p.2 > best.2 then p else best) e from rfl]
    refine ⟨?_, ?_⟩
    · rcases hmem with heq | hm
      · rw [heq]
        exact List.mem_cons_self e t
      · exact List.mem_cons_of_mem e hm
    · intro p hp
      rcases List.mem_cons.mp hp with rfl | hp'
      · exact hle
      · exact hall p hp'

theorem assocMass_foldl_bump (es : List (ℤ × ℕ)) : ∀ (c : List (ℤ × ℕ)) (k : ℤ),
    assocMass (es.foldl (fun c p => bump c p.1 p.2) c) k
      = assocMass c k + assocMass es k := by
  induction es with
  | nil =>
    intro c k
    simp [assocMass_nil]
  | cons p t ih =>
    intro c k
    rw [List.foldl_cons, ih, assocMass_bump, assocMass_cons]
    by_cases h : k = p.1
    · simp [h]
      omega
    · have h' : ¬(p.1 = k) := fun hh => h hh.symm
      simp [h, h']

theorem mem_keys_foldl_bump (es : List (ℤ × ℕ)) : ∀ (c : List (ℤ × ℕ)) (k : ℤ),
    k ∈ keysOf (es.foldl (fun c p => bump c p.1 p.2) c)
      ↔ k ∈ keysOf c ∨ k ∈ keysOf es := by
  induction es with
  | nil =>
    intro c k
    simp [keysOf]
  | cons p t ih =>
    intro c k
    rw [List.foldl_cons, ih, mem_keys_bump]
    simp only [keysOf, List.map_cons, List.mem_cons]
    tauto

theorem nodup_keys_foldl_bump (es : List (ℤ × ℕ)) : ∀ (c : List (ℤ × ℕ)),
    (keysOf c).Nodup → (keysOf (es.foldl (fun c p => bump c p.1 p.2) c)).Nodup := by
  induction es with
  | nil => intro c h; exact h
  | cons p t ih =>
    intro c h
    rw [List.foldl_cons]
    exact ih _ (nodup_keys_bump _ _ _ h)

theorem size_chars_assocMass (doc : List PdfPage) (k : ℤ) :
    assocMass (size_chars doc) k = charMass doc k := by
  rw [show size_chars doc
      = (sizeEntries doc).foldl (fun c p => bump c p.1 p.2) [] from rfl,
    assocMass_foldl_bump]
  simp [assocMass_nil, charMass]

theorem mem_keys_size_chars (doc : List PdfPage) (k : ℤ) :
    k ∈ keysOf (size_chars doc) ↔ k ∈ observedSizes doc := by
  rw [show size_chars doc
      = (sizeEntries doc).foldl (fun c p => bump c p.1 p.2) [] from rfl,
    mem_keys_foldl_bump]
  simp [keysOf, observedSizes]

theorem nodup_keys_size_chars (doc : List PdfPage) :
    (keysOf (size_chars doc)).Nodup :=
  nodup_keys_foldl_bump _ [] (by simp [keysOf])

/-- C1: for a document with at least one non-blank span, `title_size` is the
largest rounded font size observed anywhere in the document, and
`body_size` is an observed rounded size whose accumulated non-blank
character count is greatest (no other observed size has more mass). -/
theorem analyze_pdf_fonts_spec (doc : List PdfPage)
    (h : ∃ s ∈ docSpans doc, pyStrip s.text ≠ []) :
    (analyze_pdf_fonts doc).title ∈ observedSizes doc
    ∧ (∀ k ∈ observedSizes doc, k ≤ (analyze_pdf_fonts doc).title)
    ∧ (analyze_pdf_fonts doc).body ∈ observedSizes doc
    ∧ ∀ k ∈ observedSizes doc,
        charMass doc k ≤ charMass doc (analyze_pdf_fonts doc).body := by
  obtain ⟨s, hs, hne⟩ := h
  have hmem : (pyRound s.size, (pyStrip s.text).length) ∈ sizeEntries doc := by
    simp only [sizeEntries, List.mem_filterMap]
    exact ⟨s, hs, by simp [hne]⟩
  have hscne : size_chars doc ≠ [] := by
    intro h0
    have hkk : pyRound s.size ∈ keysOf (size_chars doc) :=
      (mem_keys_size_chars doc _).mpr (List.mem_map_of_mem Prod.fst hmem)
    rw [h0] at hkk
    simp [keysOf] at hkk
  have hana : analyze_pdf_fonts doc
      = ⟨maxKey (size_chars doc), (mostCommon1 (size_chars doc)).1⟩ := by
    simp [analyze_pdf_fonts, hscne]
  rw [hana]
  obtain ⟨hmk, hmax⟩ := maxKey_spec (size_chars doc) hscne
  obtain ⟨hmc, hall⟩ := mostCommon1_spec (size_chars doc) hscne
  refine ⟨?_, ?_, ?_, ?_⟩
  · exact (mem_keys_size_chars doc _).mp hmk
  · intro k hk
    exact hmax k ((mem_keys_size_chars doc k).mpr hk)
  · exact (mem_keys_size_chars doc _).mp (List.mem_map_of_mem Prod.fst hmc)
  · intro k hk
    have hkk : k ∈ keysOf (size_chars doc) := (mem_keys_size_chars doc k).mpr hk
    obtain ⟨p, hp, hpk⟩ := List.mem_map.mp hkk
    have h1 : charMass doc k = p.2 := by
      rw [← size_chars_assocMass, ← hpk]
      exact assocMass_of_mem_nodup _ _ _ (by simpa using hp) (nodup_keys_size_chars doc)
    have h2 : charMass doc (mostCommon1 (size_chars doc)).1
        = (mostCommon1 (size_chars doc)).2 := by
      rw [← size_chars_assocMass]
      exact assocMass_of_mem_nodup _ _ _ (by simpa using hmc) (nodup_keys_size_chars doc)
    rw [h1, h2]
    exact hall p hp

/-- One page with a single huge-font word (3 characters at 40pt) and a long
small-font line (60 characters at 24pt). -/
def massWitnessDoc : List PdfPage :=
  [⟨100,
    [⟨0, [⟨[⟨"BIG".data, "Helvetica".data, 40⟩], 0⟩,
          ⟨[⟨List.replicate 60 'a', "Helvetica".data, 24⟩], 10⟩]⟩],
    0, [], "png"⟩]

/-- C1 witness: on the huge-word document the analyzer picks the small size
(24, the mass winner) as `body_size` and the largest size (40) as
`title_size`. -/
theorem analyze_pdf_fonts_spec_witness :
    (∃ s ∈ docSpans massWitnessDoc, pyStrip s.text ≠ [])
    ∧ (∀ k ∈ observedSizes massWitnessDoc, k ≤ (analyze_pdf_fonts massWitnessDoc).title)
    ∧ (∀ k ∈ observedSizes massWitnessDoc,
        charMass massWitnessDoc k ≤ charMass massWitnessDoc (analyze_pdf_fonts massWitnessDoc).body)
    ∧ analyze_pdf_fonts massWitnessDoc = ⟨40, 24⟩ :=
  ⟨by with_unfolding_all decide,
   (analyze_pdf_fonts_spec massWitnessDoc (by with_unfolding_all decide)).2.1,
   (analyze_pdf_fonts_spec massWitnessDoc (by with_unfolding_all decide)).2.2.2,
   by with_unfolding_all decide⟩

-- --- C5 ------------------------------------------------------------------------

/-- A line qualifies for the title rule: it survives the blank-line and
page-number guards and its maximum span size is within the title threshold
(`max_sz >= title_size - 2`). -/
def lineQualifiesTitleB (fs : FontStats) (page_h : ℚ) (ln : PdfLine) : Bool :=
  decide (nbSpans ln ≠ []) && decide (lineText ln ≠ []) &&
  !(decide (maxSize (nbSpans ln) < 15) && decide (ln.y > page_h * (4/5)) &&
    pyIsDigit (pyStrip (lineText ln))) &&
  decide (maxSize (nbSpans ln) ≥ (fs.title : ℚ) - 2)

/-- The classifier's open-bullet pointer always references a bullet
element. -/
def BulletInv (st : CState) : Prop :=
  ∀ i, st.current_bullet = some i →
    ∃ sp lv, st.elements[i]? = some (Element.bullet sp lv)

theorem getElem?_modifyIdx_self (l : List α) (i : ℕ) (f : α → α) :
    (modifyIdx l i f)[i]? = (l[i]?).map f := by
  induction l generalizing i with
  | nil => cases i <;> simp [modifyIdx]
  | cons a t ih =>
    cases i with
    | zero => simp [modifyIdx]
    | succ n => simpa [modifyIdx] using ih n

theorem filter_title_modifyIdx (l : List Element) (i : ℕ) (sp : List Span)
    (h : ∃ s lv, l[i]? = some (Element.bullet s lv)) :
    (modifyIdx l i fun e => e.extendSpans sp).filter isTitleEl
      = l.filter isTitleEl := by
  induction l generalizing i with
  | nil => simp [modifyIdx]
  | cons a t ih =>
    cases i with
    | zero =>
      obtain ⟨s, lv, hh⟩ := h
      simp only [List.getElem?_cons_zero, Option.some.injEq] at hh
      subst hh
      simp [modifyIdx, Element.extendSpans, isTitleEl, List.filter_cons]
    | succ n =>
      obtain ⟨s, lv, hh⟩ := h
      simp only [List.getElem?_cons_succ] at hh
      rw [show modifyIdx (a :: t) (n + 1) (fun e => e.extendSpans sp)
          = a :: modifyIdx t n (fun e => e.extendSpans sp) from rfl]
      simp [List.filter_cons, ih n ⟨s, lv, hh⟩]

theorem lineStep_title_cases (fs : FontStats) (page_h : ℚ) (page_num : ℕ)
    (st : CState) (ln : PdfLine) (hb : BulletInv st) :
    BulletInv (lineStep fs page_h page_num st ln)
    ∧ (lineStep fs page_h page_num st ln).title_emitted
        = (st.title_emitted || lineQualifiesTitleB fs page_h ln)
    ∧ (lineStep fs page_h page_num st ln).elements.filter isTitleEl
        = st.elements.filter isTitleEl ++
          (if st.title_emitted = false ∧ lineQualifiesTitleB fs page_h ln = true
           then [Element.title (nbSpans ln) page_num] else []) := by
  by_cases h1 : (nbSpans ln).isEmpty = true
  · have hnil : nbSpans ln = [] := List.isEmpty_iff.mp h1
    have hq : lineQualifiesTitleB fs page_h ln = false := by
      simp [lineQualifiesTitleB, hnil]
    have hst : lineStep fs page_h page_num st ln = st := by
      simp [lineStep, h1]
    rw [hst, hq]
    exact ⟨hb, by simp, by simp⟩
  have h1f : (nbSpans ln).isEmpty = false := by
    cases hh : (nbSpans ln).isEmpty
    · rfl
    · exact absurd hh h1
  have hnn : nbSpans ln ≠ [] := List.isEmpty_eq_false.mp h1f
  have htn : lineText ln ≠ [] := lineText_ne_nil hnn
  have h2f : (lineText ln).isEmpty = false := List.isEmpty_eq_false.mpr htn
  by_cases h3 : maxSize (nbSpans ln) < 15 ∧ ln.y > page_h * (4/5) ∧
      pyIsDigit (pyStrip (lineText ln)) = true
  · have hq : lineQualifiesTitleB fs page_h ln = false := by
      simp [lineQualifiesTitleB, h3.1, h3.2.1, h3.2.2]
    have hst : lineStep fs page_h page_num st ln = st := by
      simp only [lineStep, h1f, h2f, Bool.false_eq_true, if_false]
      rw [if_pos h3]
    rw [hst, hq]
    exact ⟨hb, by simp, by simp⟩
  have h3b : (decide (maxSize (nbSpans ln) < 15) && decide (ln.y > page_h * (4/5)) &&
      pyIsDigit (pyStrip (lineText ln))) = false := by
    rw [Bool.eq_false_iff]
    intro hh
    apply h3
    simp only [Bool.and_eq_true, decide_eq_true_eq] at hh
    exact ⟨hh.1.1, hh.1.2, hh.2⟩
  by_cases h4 : maxSize (nbSpans ln) ≥ (fs.title : ℚ) - 2 ∧ st.title_emitted = false
  · have hq : lineQualifiesTitleB fs page_h ln = true := by
      simp only [lineQualifiesTitleB, h3b, Bool.not_false, Bool.and_true,
        Bool.and_eq_true, decide_eq_true_eq]
      exact ⟨⟨hnn, htn⟩, h4.1⟩
    have hst : lineStep fs page_h page_num st ln =
        { elements := st.elements ++ [Element.title (nbSpans ln) page_num]
          list_depth := 0
          current_bullet := none
          title_emitted := true
          slide_title := some (lineText ln) } := by
      simp only [lineStep, h1f, h2f, Bool.false_eq_true, if_false]
      rw [if_neg h3, if_pos h4]
    rw [hst]
    refine ⟨?_, ?_, ?_⟩
    · intro i hi
      simp at hi
    · simp [h4.2, hq]
    · simp only [List.filter_append]
      rw [if_pos ⟨h4.2, hq⟩]
      simp [isTitleEl, List.filter_cons]
  have hqe : (st.title_emitted || lineQualifiesTitleB fs page_h ln)
      = st.title_emitted := by
    cases hemit : st.title_emitted
    · have hge : ¬(maxSize (nbSpans ln) ≥ (fs.title : ℚ) - 2) := fun hg => h4 ⟨hg, hemit⟩
      simp [lineQualifiesTitleB, hge]
    · simp
  have hcond : ¬(st.title_emitted = false ∧ lineQualifiesTitleB fs page_h ln = true) := by
    rintro ⟨hf, hqt⟩
    simp only [lineQualifiesTitleB, Bool.and_eq_true, decide_eq_true_eq] at hqt
    exact h4 ⟨hqt.2, hf⟩
  by_cases h5 : ((lineText ln).head?.any fun c => decide (c ∈ topBulletChars)) = true
  · have hst : lineStep fs page_h page_num st ln =
        { st with
          elements := st.elements ++ [Element.bullet (strip_bullet_char (nbSpans ln)) 0]
          list_depth := if (if st.list_depth > 1 then 1 else st.list_depth) = 0 then 1
            else if st.list_depth > 1 then 1 else st.list_depth
          current_bullet := some st.elements.length } := by
      simp only [lineStep, h1f, h2f, Bool.false_eq_true, if_false]
      rw [if_neg h3, if_neg h4, if_pos h5]
    rw [hst]
    refine ⟨?_, hqe.symm, ?_⟩
    · intro i hi
      simp only [Option.some.injEq] at hi
      subst hi
      exact ⟨strip_bullet_char (nbSpans ln), 0, List.getElem?_concat_length st.elements _⟩
    · simp only [List.filter_append]
      rw [if_neg hcond]
      simp [isTitleEl, List.filter_cons]
  by_cases h6 : ((lineText ln).head?.any fun c => decide (c ∈ subBulletChars)) = true
  · have hst : lineStep fs page_h page_num st ln =
        { st with
          elements := st.elements ++ [Element.bullet (strip_bullet_char (nbSpans ln)) 1]
          list_depth := 2
          current_bullet := some st.elements.length } := by
      simp only [lineStep, h1f, h2f, Bool.false_eq_true, if_false]
      rw [if_neg h3, if_neg h4, if_neg h5, if_pos h6]
    rw [hst]
    refine ⟨?_, hqe.symm, ?_⟩
    · intro i hi
      simp only [Option.some.injEq] at hi
      subst hi
      exact ⟨strip_bullet_char (nbSpans ln), 1, List.getElem?_concat_length st.elements _⟩
    · simp only [List.filter_append]
      rw [if_neg hcond]
      simp [isTitleEl, List.filter_cons]
  by_cases h7 : ((nbSpans ln).all fun s => is_math s.font) = true
  · have hst : lineStep fs page_h page_num st ln =
        { st with
          elements := st.elements ++ [Element.equation (nbSpans ln)]
          current_bullet := none } := by
      simp only [lineStep, h1f, h2f, Bool.false_eq_true, if_false]
      rw [if_neg h3, if_neg h4, if_neg h5, if_neg h6, if_pos h7]
    rw [hst]
    refine ⟨?_, hqe.symm, ?_⟩
    · intro i hi
      simp at hi
    · simp only [List.filter_append]
      rw [if_neg hcond]
      simp [isTitleEl, List.filter_cons]
  by_cases h8 : maxSize (nbSpans ln) < (fs.body : ℚ) - 6 ∧
      maxSize (nbSpans ln) < (fs.title : ℚ) - 10
  · have hst : lineStep fs page_h page_num st ln =
        { st with
          elements := st.elements ++ [Element.label (nbSpans ln)]
          list_depth := 0
          current_bullet := none } := by
      simp only [lineStep, h1f, h2f, Bool.false_eq_true, if_false]
      rw [if_neg h3, if_neg h4, if_neg h5, if_neg h6, if_neg h7, if_pos h8]
    rw [hst]
    refine ⟨?_, hqe.symm, ?_⟩
    · intro i hi
      simp at hi
    · simp only [List.filter_append]
      rw [if_neg hcond]
      simp [isTitleEl, List.filter_cons]
  cases hcb : st.current_bullet with
  | some i =>
    have hst : lineStep fs page_h page_num st ln =
        { st with
          elements := modifyIdx st.elements i fun e => e.extendSpans (nbSpans ln) } := by
      simp only [lineStep, h1f, h2f, Bool.false_eq_true, if_false]
      rw [if_neg h3, if_neg h4, if_neg h5, if_neg h6, if_neg h7, if_neg h8, hcb]
    rw [hst]
    refine ⟨?_, hqe.symm, ?_⟩
    · intro j hj
      have hj' : st.current_bullet = some j := hj
      rw [hcb] at hj'
      simp only [Option.some.injEq] at hj'
      subst hj'
      obtain ⟨s0, lv0, hg⟩ := hb i hcb
      refine ⟨s0 ++ nbSpans ln, lv0, ?_⟩
      rw [getElem?_modifyIdx_self, hg]
      rfl
    · rw [filter_title_modifyIdx st.elements i (nbSpans ln) (hb i hcb), if_neg hcond]
      simp
  | none =>
    by_cases h9 : st.list_depth > 0
    · have hst : lineStep fs page_h page_num st ln =
          { st with
            elements := st.elements ++ [Element.bullet (nbSpans ln) (st.list_depth - 1)]
            current_bullet := some st.elements.length } := by
        simp only [lineStep, h1f, h2f, Bool.false_eq_true, if_false]
        rw [if_neg h3, if_neg h4, if_neg h5, if_neg h6, if_neg h7, if_neg h8, hcb]
        rw [if_pos h9]
      rw [hst]
      refine ⟨?_, hqe.symm, ?_⟩
      · intro j hj
        simp only [Option.some.injEq] at hj
        subst hj
        exact ⟨nbSpans ln, st.list_depth - 1, List.getElem?_concat_length st.elements _⟩
      · simp only [List.filter_append]
        rw [if_neg hcond]
        simp [isTitleEl, List.filter_cons]
    · have hst : lineStep fs page_h page_num st ln =
          { st with elements := st.elements ++ [Element.body (nbSpans ln)] } := by
        simp only [lineStep, h1f, h2f, Bool.false_eq_true, if_false]
        rw [if_neg h3, if_neg h4, if_neg h5, if_neg h6, if_neg h7, if_neg h8, hcb]
        rw [if_neg h9]
      rw [hst]
      refine ⟨?_, hqe.symm, ?_⟩
      · intro j hj
        have hj' : st.current_bullet = some j := hj
        rw [hcb] at hj'
        simp at hj'
      · simp only [List.filter_append]
        rw [if_neg hcond]
        simp [isTitleEl, List.filter_cons]

theorem classify_title_aux (fs : FontStats) (page_h : ℚ) (page_num : ℕ) :
    ∀ (lines : List PdfLine) (st : CState), BulletInv st →
      (lines.foldl (lineStep fs page_h page_num) st).elements.filter isTitleEl
        = st.elements.filter isTitleEl ++
          (if st.title_emitted = false
           then ((lines.find? (lineQualifiesTitleB fs page_h)).toList.map
              fun ln => Element.title (nbSpans ln) page_num)
           else []) := by
  intro lines
  induction lines with
  | nil =>
    intro st _
    cases st.title_emitted <;> simp
  | cons ln rest ih =>
    intro st hb
    rw [List.foldl_cons]
    obtain ⟨hb', hemit, hfil⟩ := lineStep_title_cases fs page_h page_num st ln hb
    rw [ih _ hb', hfil, hemit]
    cases he : st.title_emitted
    · by_cases hq : lineQualifiesTitleB fs page_h ln = true
      · rw [List.find?_cons_of_pos _ hq]
        simp [hq]
      · have hqf : lineQualifiesTitleB fs page_h ln = false := by
          cases hh : lineQualifiesTitleB fs page_h ln
          · rfl
          · exact absurd hh hq
        rw [List.find?_cons_of_neg _ (by simp [hqf])]
        simp [hqf]
    · simp

/-- C5: the classifier emits at most one Title element per page: the Title
elements of the classified page are exactly one element for the first line
that passes the blank-line and page-number guards with maximum span size at
least `title_size - 2` (none when no line qualifies), carrying that line's
non-blank spans; hence once a title is emitted no later line can become a
Title. -/
theorem page_title_unique (fs : FontStats) (page : PdfPage) (page_num : ℕ) :
    (classifyLines fs page.height page_num (pdfLines page)).elements.filter isTitleEl
      = ((pdfLines page).find? (lineQualifiesTitleB fs page.height)).toList.map
          (fun ln => Element.title (nbSpans ln) page_num)
    ∧ ((classifyLines fs page.height page_num (pdfLines page)).elements.filter
        isTitleEl).length ≤ 1 := by
  have h := classify_title_aux fs page.height page_num (pdfLines page) initState
    (by intro i hi; simp [initState] at hi)
  have h2 : (classifyLines fs page.height page_num (pdfLines page)).elements.filter
      isTitleEl
      = ((pdfLines page).find? (lineQualifiesTitleB fs page.height)).toList.map
          (fun ln => Element.title (nbSpans ln) page_num) := by
    simpa [classifyLines, initState] using h
  refine ⟨h2, ?_⟩
  rw [h2]
  cases (pdfLines page).find? (lineQualifiesTitleB fs page.height) <;> simp
